import Mathlib

/-!
# Huffman tree construction

A shallow embedding of the Go package `huffTree` (files `huffTree/huffTree.go`,
`node.go`, `main/main.go`) together with the part of Go's `container/heap`
that `makeTreeFromNodeSlice` drives.

Conventions of the embedding.

* A `byte` is a `Fin 256`; a `uint32` is a `Nat` reduced modulo `2 ^ 32` after
  every addition the source performs.
* A Go pointer `*huffNode` is a value of `huffNode`, whose constructor `nil`
  is the nil pointer.
* A Go result pair `(t *HuffTree, err error)` is a pair of options, `none`
  standing for `nil`.
* A function that can panic, or whose loop is driven by fuel, returns an
  outer `Option`; `none` means that the Go code does not return normally.
* Go lists the entries of a map in an unspecified order; `MakeTreeFromText`
  takes that order as an argument, a `MapRange`.
* The type `nodeHeap` is declared nowhere in the sources. It is modelled from
  section 4.2 of the specification: nodes ordered by count, ties broken by
  insertion sequence number.
* Reading a field through the nil pointer panics in Go; the model reads a
  zero value there. The theorems about trees concern slices of leaf nodes,
  which are not nil.
-/

namespace Huffman

/-! ## Data model -/

/-- A byte value. -/
abbrev Byte := Fin 256

/-- The modulus of `uint32` arithmetic. -/
def uint32Mod : Nat := 4294967296

/-- The node type as `huffTree.go` uses it: the composite literals of
`MakeTreeFromText` and `makeTreeFromNodeSlice` set the fields `char`, `count`,
`left` and `right`, `char` from a `byte` and `count` from a `uint32` map
value, as in the data model of the specification (symbol: one byte value,
count: unsigned frequency). The declaration in `node.go` still has
`char rune` and `freq float64`. The constructor `nil` is the nil pointer. -/
inductive huffNode where
  | nil : huffNode
  | mk (char : Byte) (count : Nat) (left right : huffNode) : huffNode
  deriving DecidableEq, Repr

/-- Field `count`; the nil pointer has no fields, the model reads `0`. -/
def huffNode.count : huffNode → Nat
  | .nil => 0
  | .mk _ c _ _ => c

/-- Field `char`. -/
def huffNode.char : huffNode → Byte
  | .nil => 0
  | .mk c _ _ _ => c

/-- Field `left`. -/
def huffNode.left : huffNode → huffNode
  | .nil => .nil
  | .mk _ _ l _ => l

/-- Field `right`. -/
def huffNode.right : huffNode → huffNode
  | .nil => .nil
  | .mk _ _ _ r => r

/-- The literal `&huffNode{char: c, count: n}`: both children are nil. -/
def huffNode.leaf (c : Byte) (n : Nat) : huffNode := .mk c n .nil .nil

/-- `HuffTree` is a pointer to the root node. -/
structure HuffTree where
  root : huffNode
  deriving DecidableEq, Repr

/-! ## The node heap -/

/-- Modelled from the spec: an element of the node heap, which is declared
nowhere in the sources: a node and the insertion sequence number of section
4.2 of the specification. -/
abbrev heapItem := huffNode × Nat

/-- Modelled from the spec: the value the model reads at an index of the node
heap that holds no element; Go panics there, and the heap algorithms never
read such an index. -/
def heapItem.dflt : heapItem := (huffNode.nil, 0)

/-- Modelled from the spec: the type `nodeHeap`, which `makeTreeFromNodeSlice`
instantiates and hands to `container/heap`, is declared nowhere in the
sources. Following section 4.2 of the specification it is a container of
nodes keyed by count, ascending, ties broken by insertion sequence number:
`items` is the backing slice and `next` the sequence number the next inserted
node receives. -/
structure nodeHeap where
  items : List heapItem
  next : Nat
  deriving DecidableEq, Repr

/-- Modelled from the spec: the ordering of section 4.2, count ascending and
for equal counts the insertion sequence number ascending. -/
def heapItem.less (a b : heapItem) : Bool :=
  decide (a.1.count < b.1.count ∨ (a.1.count = b.1.count ∧ a.2 < b.2))

/-- Modelled from the spec: `nodeHeap.Len`, the size query. -/
def nodeHeap.Len (h : nodeHeap) : Nat := h.items.length

/-- Modelled from the spec: `nodeHeap.Less`, the ordering applied to the
elements at two indices. -/
def nodeHeap.Less (h : nodeHeap) (i j : Nat) : Bool :=
  heapItem.less (h.items.getD i heapItem.dflt) (h.items.getD j heapItem.dflt)

/-- Modelled from the spec: `nodeHeap.Swap`, exchanging two elements of the
backing slice. -/
def nodeHeap.Swap (h : nodeHeap) (i j : Nat) : nodeHeap :=
  let a := h.items.getD i heapItem.dflt
  let b := h.items.getD j heapItem.dflt
  { items := (h.items.set i b).set j a, next := h.next }

/-- Modelled from the spec: `nodeHeap.Push`, appending a node stamped with
the next sequence number. -/
def nodeHeap.Push (h : nodeHeap) (x : huffNode) : nodeHeap :=
  { items := h.items ++ [(x, h.next)], next := h.next + 1 }

/-- Modelled from the spec: `nodeHeap.Pop`, removing and returning the last
element of the backing slice; `none` on an empty slice, where Go panics. -/
def nodeHeap.Pop (h : nodeHeap) : Option (huffNode × nodeHeap) :=
  match h.items.getLast? with
  | none => none
  | some it => some (it.1, { items := h.items.dropLast, next := h.next })

/-! ## The heap algorithms of `container/heap` -/

/-- The loop of `heap.up`, one iteration per unit of fuel. -/
def heap.upLoop : Nat → nodeHeap → Nat → nodeHeap
  | 0, h, _ => h
  | fuel + 1, h, j =>
    let i := (j - 1) / 2
    if i = j ∨ h.Less j i = false then h
    else heap.upLoop fuel (h.Swap i j) i

/-- `heap.up`: sift the element at index `j` towards the root. The index
decreases in every iteration, so `j + 1` iterations are enough. -/
def heap.up (h : nodeHeap) (j : Nat) : nodeHeap := heap.upLoop (j + 1) h j

/-- The loop of `heap.down`, one iteration per unit of fuel. -/
def heap.downLoop : Nat → nodeHeap → Nat → Nat → nodeHeap
  | 0, h, _, _ => h
  | fuel + 1, h, i, n =>
    let j1 := 2 * i + 1
    if n ≤ j1 then h
    else
      let j := if j1 + 1 < n ∧ h.Less (j1 + 1) j1 = true then j1 + 1 else j1
      if h.Less j i = false then h
      else heap.downLoop fuel (h.Swap i j) j n

/-- `heap.down`: sift the element at index `i0` towards the leaves within the
first `n` elements. The index increases in every iteration and stays below
`n`, so `n` iterations are enough. The test `j1 < 0` of the Go loop guards
against `int` overflow, which no slice index reaches, and the boolean the Go
function returns is used by neither `heap.Init` nor `heap.Pop`; both are left
out. -/
def heap.down (h : nodeHeap) (i0 n : Nat) : nodeHeap := heap.downLoop n h i0 n

/-- `heap.Init`: `down` at the indices `n/2 - 1, ..., 0`. -/
def heap.Init (h : nodeHeap) : nodeHeap :=
  (List.range (h.Len / 2)).reverse.foldl (fun g i => heap.down g i h.Len) h

/-- `heap.Push`: append, then sift up from the last index. -/
def heap.Push (h : nodeHeap) (x : huffNode) : nodeHeap :=
  heap.up (h.Push x) ((h.Push x).Len - 1)

/-- `heap.Pop`: exchange the root with the last element, sift the new root
down within the shorter prefix, remove the last element. On an empty heap
`Swap(0, -1)` panics: `none`. -/
def heap.Pop (h : nodeHeap) : Option (huffNode × nodeHeap) :=
  if h.Len = 0 then none
  else
    let n := h.Len - 1
    (heap.down (h.Swap 0 n) 0 n).Pop

/-! ## Building the tree -/

/-- The merge loop of `makeTreeFromNodeSlice`, one iteration per unit of
fuel; `none` when a `heap.Pop` panics or the fuel runs out with more than
one node left. -/
def mergeLoop : Nat → nodeHeap → Option nodeHeap
  | 0, nh => if 1 < nh.Len then none else some nh
  | fuel + 1, nh =>
    if 1 < nh.Len then
      match heap.Pop nh with
      | none => none
      | some (nodeOne, nh1) =>
        match heap.Pop nh1 with
        | none => none
        | some (nodeTwo, nh2) =>
          let newNode := huffNode.mk 0 ((nodeOne.count + nodeTwo.count) % uint32Mod)
            nodeOne nodeTwo
          mergeLoop fuel (heap.Push nh2 newNode)
    else some nh

/-- `makeTreeFromNodeSlice`: the pair `(t, err)`, inside `some` when the Go
function returns. Every iteration of the merge loop shortens the heap by one,
so `len(nodes)` units of fuel are enough. -/
def makeTreeFromNodeSlice (nodes : List huffNode) :
    Option (Option HuffTree × Option String) :=
  if nodes.length = 0 then some (none, some "Invalid node slice.")
  else
    let nh := nodes.foldl heap.Push (heap.Init { items := [], next := 0 })
    match mergeLoop nodes.length nh with
    | none => none
    | some nh1 =>
      match heap.Pop nh1 with
      | none => none
      | some (root, _) => some (some { root := root }, none)

/-- The statement `counts[elem] += 1` on a `map[byte]uint32`, the map kept as
an association list with one entry per key. -/
def incrCount : List (Byte × Nat) → Byte → List (Byte × Nat)
  | [], b => [(b, (0 + 1) % uint32Mod)]
  | (k, v) :: rest, b =>
    if k = b then (k, (v + 1) % uint32Mod) :: rest
    else (k, v) :: incrCount rest b

/-- The map `counts` that `MakeTreeFromText` builds from the bytes read. -/
def countBytes (buf : List Byte) : List (Byte × Nat) := buf.foldl incrCount []

/-- Go enumerates a map in an unspecified order: a `MapRange` is one way of
listing the entries of every map, each entry exactly once. -/
structure MapRange where
  enum : List (Byte × Nat) → List (Byte × Nat)
  perm : ∀ m, (enum m).Perm m

/-- The enumeration that lists the entries in the order they were created. -/
def MapRange.inOrder : MapRange := ⟨fun m => m, fun _ => List.Perm.refl _⟩

/-- The enumeration that lists the entries in the opposite order. -/
def MapRange.reversed : MapRange := ⟨List.reverse, fun m => List.reverse_perm m⟩

/-- The node slice `MakeTreeFromText` fills from the map. -/
def nodesOfCounts (r : MapRange) (counts : List (Byte × Nat)) : List huffNode :=
  (r.enum counts).map (fun kv => huffNode.leaf kv.1 kv.2)

/-- `MakeTreeFromText`. `file` is what `ioutil.ReadFile` returned and `r` the
order in which `range counts` lists the map. -/
def MakeTreeFromText (r : MapRange) (file : Except String (List Byte)) :
    Option (Option HuffTree × Option String) :=
  match file with
  | .error e => some (none, some e)
  | .ok buf => makeTreeFromNodeSlice (nodesOfCounts r (countBytes buf))

/-! ## Encoding and decoding -/

/-- `EncodeText`: the returned error; the function touches no file. -/
def EncodeText (_t : HuffTree) (_fromFile _toFile : String) : Option String :=
  some "Undefined method"

/-- `WriteToFile`: the returned error. -/
def WriteToFile (_t : HuffTree) (_filename : String) : Option String :=
  some "Undefined method"

/-- `MakeTreeFromTreeFile`: an empty tree together with an error. -/
def MakeTreeFromTreeFile (_filename : String) : Option HuffTree × Option String :=
  (some { root := huffNode.nil }, some "Undefined method")

/-- `ReadBit` of the bit reader: the next bit and the rest of the stream, or
`none` for the error at the end of the stream. -/
def readBit : List Bool → Option (Bool × List Bool)
  | [] => none
  | b :: rest => some (b, rest)

/-- The inner loop of `DecodeText`. Its guard `currentIndex < len(toWrite)`
is `0 < 1000` throughout, since nothing changes `currentIndex`; the loop
reads bits until `ReadBit` fails and returns that error. -/
def decodeInner : List Bool → String
  | [] => "EOF"
  | _ :: rest => decodeInner rest

/-- `DecodeText`. `reader` is what `bitIO.NewReader(fromFile)` returned, the
bits of the file or an error, and `created` is the error of
`os.Create(toFile)`, `none` when the file was created. The result is the
bytes written to `toFile` and the returned error. The outer loop runs while
`err != nil`, so it is skipped when the first `ReadBit` succeeds. -/
def DecodeText (_t : HuffTree) (reader : Except String (List Bool))
    (created : Option String) : List Byte × Option String :=
  match reader with
  | .error e => ([], some e)
  | .ok bits =>
    match created with
    | some e => ([], some e)
    | none =>
      match readBit bits with
      | some _ => ([], none)
      | none => ([], some (decodeInner bits))

/-! ## Specification of the heap -/

/-- Count of the element at an index. -/
def nodeHeap.cnt (h : nodeHeap) (i : Nat) : Nat := (h.items.getD i heapItem.dflt).1.count

/-- Sequence number of the element at an index. -/
def nodeHeap.sq (h : nodeHeap) (i : Nat) : Nat := (h.items.getD i heapItem.dflt).2

/-- The strict order of the heap between the elements at two indices. -/
def nodeHeap.ltAt (h : nodeHeap) (i j : Nat) : Prop :=
  h.cnt i < h.cnt j ∨ (h.cnt i = h.cnt j ∧ h.sq i < h.sq j)

/-- Every element below index `n` is not smaller than its parent. -/
def HeapUpTo (h : nodeHeap) (n : Nat) : Prop :=
  ∀ k, 0 < k → k < n → ¬ h.ltAt k ((k - 1) / 2)

/-- The heap order holds below `n` except between `i` and its children, and
the children of `i` are not smaller than the parent of `i`. -/
def DownInv (h : nodeHeap) (n i : Nat) : Prop :=
  (∀ k p, 0 < k → k < n → p = (k - 1) / 2 → p ≠ i → ¬ h.ltAt k p) ∧
  (∀ k p, 0 < k → k < n → (k - 1) / 2 = i → 0 < i → p = (i - 1) / 2 → ¬ h.ltAt k p)

/-- The heap order holds below `n` except between `j` and its parent, and the
children of `j` are not smaller than the parent of `j`. -/
def UpInv (h : nodeHeap) (n j : Nat) : Prop :=
  (∀ k p, 0 < k → k < n → p = (k - 1) / 2 → k ≠ j → ¬ h.ltAt k p) ∧
  (∀ k p, 0 < k → k < n → (k - 1) / 2 = j → 0 < j → p = (j - 1) / 2 → ¬ h.ltAt k p)

/-- The invariant of the node heap: the backing slice is heap ordered, every
sequence number in it is below `next`, and no sequence number repeats. -/
def nodeHeap.WF (h : nodeHeap) : Prop :=
  HeapUpTo h h.items.length ∧ (∀ it ∈ h.items, it.2 < h.next) ∧
    (h.items.map Prod.snd).Nodup

/-! ## Specification of the merge process -/

/-- The node the merge loop creates from the two nodes it popped. -/
def mergeNodes (a b : huffNode) : huffNode :=
  huffNode.mk 0 ((a.count + b.count) % uint32Mod) a b

/-- The merge process on the collection of nodes still to be joined: while
more than one node is left, two nodes are taken out, the first with a count
not above any other, the second with a count not above any remaining one,
and their merge is put back; the last node left is the result. -/
inductive Builds : Multiset huffNode → huffNode → Prop
  | done (t : huffNode) : Builds {t} t
  | step (a b : huffNode) (R : Multiset huffNode) (t : huffNode) :
      (∀ x ∈ b ::ₘ R, a.count ≤ x.count) → (∀ x ∈ R, b.count ≤ x.count) →
      Builds (mergeNodes a b ::ₘ R) t → Builds (a ::ₘ b ::ₘ R) t

/-- The nodes held by a heap, as a multiset. -/
def nodeHeap.nodes (h : nodeHeap) : Multiset huffNode := ↑(h.items.map Prod.fst)

/-! ## Measures and shapes of trees -/

/-- The leaves below a node, left to right, each with its depth counted from
`d`. A node both of whose children are nil is a leaf; below the nil pointer
there is none. -/
def huffNode.leavesAt : huffNode → Nat → List (huffNode × Nat)
  | .nil, _ => []
  | .mk c k l r, d =>
    if l = .nil ∧ r = .nil then [(.mk c k l r, d)]
    else l.leavesAt (d + 1) ++ r.leavesAt (d + 1)

/-- The leaves of a tree, left to right. -/
def huffNode.leaves (t : huffNode) : List huffNode := (t.leavesAt 0).map Prod.fst

/-- Weighted path length: the sum over the leaves of count times depth. -/
def huffNode.cost (t : huffNode) : Nat :=
  ((t.leavesAt 0).map (fun p => p.1.count * p.2)).sum

/-- The sum of the counts of the leaves. -/
def huffNode.weight (t : huffNode) : Nat := (t.leaves.map huffNode.count).sum

/-- A node both of whose children are nil. -/
def huffNode.isLeaf : huffNode → Bool
  | .mk _ _ .nil .nil => true
  | _ => false

/-- Every node of the tree has either no child or two non-nil children. -/
def huffNode.Strict : huffNode → Prop
  | .nil => False
  | .mk _ _ l r => (l = .nil ∧ r = .nil) ∨ (l.Strict ∧ r.Strict)

/-- Every node of the tree is a leaf or has two non-nil children and a count
that is the `uint32` sum of their counts. -/
def huffNode.StrictMod : huffNode → Prop
  | .nil => False
  | .mk _ k l r => (l = .nil ∧ r = .nil) ∨
      (l.StrictMod ∧ r.StrictMod ∧ k = (l.count + r.count) % uint32Mod)

/-- Every node of the tree is a leaf or has two non-nil children and a count
that is the sum of their counts. -/
def huffNode.StrictSum : huffNode → Prop
  | .nil => False
  | .mk _ k l r => (l = .nil ∧ r = .nil) ∨
      (l.StrictSum ∧ r.StrictSum ∧ k = l.count + r.count)

/-! ## Specification of the frequency map -/

/-- The value a map stores under a key, `none` when the key is absent. -/
def valOf : List (Byte × Nat) → Byte → Option Nat
  | [], _ => none
  | (k, v) :: rest, b => if k = b then some v else valOf rest b

/-- All leaves of the nodes of a collection. -/
def forestLeaves (F : Multiset huffNode) : Multiset huffNode :=
  F.bind (fun x => (↑x.leaves : Multiset huffNode))

/-! ## Assignments of depths to weights -/

/-- The multisets of leaf depths of the binary trees in which every node has
no child or two. -/
inductive FullDepths : Multiset ℕ → Prop
  | leaf : FullDepths {0}
  | node (A B : Multiset ℕ) : FullDepths A → FullDepths B →
      FullDepths (A.map Nat.succ + B.map Nat.succ)

/-- The weighted path length of a multiset of pairs (weight, depth). -/
def pairCost (A : Multiset (ℕ × ℕ)) : ℕ := (A.map (fun p => p.1 * p.2)).sum

/-- The leaves of a tree as pairs (count, depth). -/
def huffNode.assignment (t : huffNode) : Multiset (ℕ × ℕ) :=
  ↑((t.leavesAt 0).map (fun p => (p.1.count, p.2)))

/-- The heaps `makeTreeFromNodeSlice` can hold: the initialised empty heap
and whatever `heap.Push` and `heap.Pop` make of such a heap. -/
inductive nodeHeap.Reachable : nodeHeap → Prop
  | init : nodeHeap.Reachable (heap.Init { items := [], next := 0 })
  | push (h : nodeHeap) (x : huffNode) : nodeHeap.Reachable h →
      nodeHeap.Reachable (heap.Push h x)
  | pop (h g : nodeHeap) (x : huffNode) : nodeHeap.Reachable h →
      heap.Pop h = some (x, g) → nodeHeap.Reachable g

/-! ## Paths, order of children, nodes of a tree, and the command line -/

/-- The root-to-leaf paths of a tree: the leaves below a node, left to right,
each with the bits of the path that leads to it, `false` for a left edge and
`true` for a right edge. This is the code table of the tree in the sense of
section 3 of the specification; no function of the sources computes it. -/
def huffNode.codes : huffNode → List (huffNode × List Bool)
  | .nil => []
  | .mk c k l r =>
    if l = .nil ∧ r = .nil then [(.mk c k l r, [])]
    else l.codes.map (fun e => (e.1, false :: e.2)) ++
      r.codes.map (fun e => (e.1, true :: e.2))

/-- Every node of the tree with children has a left child whose count is not
above the count of its right child. -/
def huffNode.Ordered : huffNode → Prop
  | .nil => True
  | .mk _ _ l r => (l = .nil ∧ r = .nil) ∨ (l.count ≤ r.count ∧ l.Ordered ∧ r.Ordered)

/-- The nodes of a tree: the node itself and the nodes below it. -/
def huffNode.subtrees : huffNode → List huffNode
  | .nil => []
  | .mk c k l r => .mk c k l r :: (l.subtrees ++ r.subtrees)

/-- What a run of `main` leaves behind: the lines printed on standard output
and the exit status of the process. -/
structure Exit where
  stdout : List String
  status : Nat
  deriving DecidableEq, Repr

/-- `Usage`: prints the usage line, the operands of `fmt.Println` separated by
blanks, and exits with status 1. -/
def Usage (progName : String) : Exit :=
  { stdout := ["Usage: " ++ progName ++ " -[e | d] FROM_FILE TO_FILE"], status := 1 }

/-- `main`. `args` is `os.Args`, `filler` is what `ioutil.ReadFile` returns for
the file name `filler` that `main` passes to `MakeTreeFromText`, and `r` is
the order in which the map is listed. `os.Exit` ends the run, so the call of
`Usage` does; falling off the end of `main` is exit status 0. `none` stands
for a panic: `args[0]` on an empty `os.Args`, or one inside
`MakeTreeFromText`. -/
def main (r : MapRange) (args : List String) (filler : Except String (List Byte)) :
    Option Exit :=
  if args.length ≠ 4 then
    match args with
    | [] => none
    | progName :: _ => some (Usage progName)
  else
    match MakeTreeFromText r filler with
    | none => none
    | some (_, err) =>
      if err = none then some { stdout := ["Improperly-formatted text file."], status := 1 }
      else some { stdout := [], status := 0 }

/-! ## The node heap as a list in order of priority -/

/-- The strict order of the node heap on its elements: count ascending, for
equal counts the insertion sequence number ascending. -/
def heapItem.lt (a b : heapItem) : Prop :=
  a.1.count < b.1.count ∨ (a.1.count = b.1.count ∧ a.2 < b.2)

/-- A heap holds the nodes `N` in this order of priority: its elements,
listed in ascending order, carry the nodes of `N`. -/
def nodeHeap.Holds (h : nodeHeap) (N : List huffNode) : Prop :=
  ∃ L : List heapItem, L.Perm h.items ∧ L.Pairwise heapItem.lt ∧ L.map Prod.fst = N

/-- Put a node into a list of nodes in order of priority: behind every node
whose count is not above its own. -/
def insertNode (m : huffNode) : List huffNode → List huffNode
  | [] => [m]
  | x :: xs => if x.count ≤ m.count then x :: insertNode m xs else m :: x :: xs

/-- The nodes of a slice in the order of priority they have once all are
pushed: by count, nodes of equal count in the order of the slice. -/
def sortNodes (nodes : List huffNode) : List huffNode :=
  nodes.foldl (fun N x => insertNode x N) []

/-- The merge loop and the final pop on the list of nodes in order of
priority, one merge per unit of fuel: the first two nodes are merged and the
merged node is put back, until one node is left. -/
def mergeList : Nat → List huffNode → Option huffNode
  | _, [] => none
  | _, [t] => some t
  | 0, _ :: _ :: _ => none
  | fuel + 1, a :: b :: rest => mergeList fuel (insertNode (mergeNodes a b) rest)

/-- The tree with every symbol replaced by `0`: its shape and its counts. -/
def huffNode.shape : huffNode → huffNode
  | .nil => .nil
  | .mk _ k l r => .mk 0 k l.shape r.shape

/-! # Theorems -/

/-! ## Correctness of the heap operations -/

theorem set_cons_perm (l : List heapItem) (j : Nat) (x : heapItem) (hj : j < l.length) :
    (l.getD j heapItem.dflt :: l.set j x).Perm (x :: l) := by
  induction l generalizing j with
  | nil => simp at hj
  | cons y ys ih =>
    cases j with
    | zero => simpa using List.Perm.swap x y ys
    | succ j =>
      have hj2 : j < ys.length := by simpa using hj
      have := ih j hj2
      simp only [List.set_cons_succ, List.getD_cons_succ]
      exact ((List.Perm.swap y _ _).trans (this.cons y)).trans (List.Perm.swap _ _ _)

theorem swap_perm (l : List heapItem) (i j : Nat) (hi : i < l.length) (hj : j < l.length) :
    ((l.set i (l.getD j heapItem.dflt)).set j (l.getD i heapItem.dflt)).Perm l := by
  induction l generalizing i j with
  | nil => simp at hi
  | cons y ys ih =>
    cases i with
    | zero =>
      cases j with
      | zero => simp
      | succ j =>
        have hj2 : j < ys.length := by simpa using hj
        simpa using set_cons_perm ys j y hj2
    | succ i =>
      have hi2 : i < ys.length := by simpa using hi
      cases j with
      | zero =>
        simp only [List.getD_cons_zero, List.set_cons_succ, List.set_cons_zero, List.getD_cons_succ]
        exact set_cons_perm ys i y hi2
      | succ j =>
        have hj2 : j < ys.length := by simpa using hj
        simpa using ih i j hi2 hj2

theorem Less_iff (h : nodeHeap) (i j : Nat) : h.Less i j = true ↔ h.ltAt i j := by
  simp [nodeHeap.Less, heapItem.less, nodeHeap.ltAt, nodeHeap.cnt, nodeHeap.sq]

theorem Less_false_iff (h : nodeHeap) (i j : Nat) : h.Less i j = false ↔ ¬ h.ltAt i j := by
  rw [← Less_iff]; simp

theorem Swap_getD (h : nodeHeap) (i j k : Nat) (hi : i < h.items.length)
    (hj : j < h.items.length) :
    (h.Swap i j).items.getD k heapItem.dflt =
      if k = j then h.items.getD i heapItem.dflt
      else if k = i then h.items.getD j heapItem.dflt
      else h.items.getD k heapItem.dflt := by
  simp only [nodeHeap.Swap, List.getD_eq_getElem?_getD, List.getElem?_set, List.length_set]
  by_cases h1 : k = j
  · subst h1; simp [hj]
  · by_cases h2 : k = i
    · subst h2; simp [hi, h1, Ne.symm h1]
    · simp [h1, h2, Ne.symm h1, Ne.symm h2]

theorem Swap_length (h : nodeHeap) (i j : Nat) :
    (h.Swap i j).items.length = h.items.length := by
  simp [nodeHeap.Swap]

theorem Swap_cnt (h : nodeHeap) (i j k : Nat) (hi : i < h.items.length)
    (hj : j < h.items.length) :
    (h.Swap i j).cnt k = if k = j then h.cnt i else if k = i then h.cnt j else h.cnt k := by
  unfold nodeHeap.cnt
  rw [Swap_getD h i j k hi hj]
  split_ifs <;> rfl

theorem Swap_sq (h : nodeHeap) (i j k : Nat) (hi : i < h.items.length)
    (hj : j < h.items.length) :
    (h.Swap i j).sq k = if k = j then h.sq i else if k = i then h.sq j else h.sq k := by
  unfold nodeHeap.sq
  rw [Swap_getD h i j k hi hj]
  split_ifs <;> rfl

theorem downLoop_spec (fuel : Nat) : ∀ (h : nodeHeap) (i n : Nat),
    n ≤ h.items.length → n ≤ fuel + i → DownInv h n i →
    HeapUpTo (heap.downLoop fuel h i n) n ∧
    (heap.downLoop fuel h i n).items.Perm h.items ∧
    (heap.downLoop fuel h i n).next = h.next ∧
    (∀ k, n ≤ k → (heap.downLoop fuel h i n).items.getD k heapItem.dflt =
      h.items.getD k heapItem.dflt) := by
  induction fuel with
  | zero =>
    intro h i n _ hf inv
    refine ⟨?_, List.Perm.refl _, rfl, fun _ _ => rfl⟩
    intro k hk0 hkn
    exact inv.1 k _ hk0 hkn rfl (by omega)
  | succ fuel ih =>
    intro h i n hn hf inv
    rw [heap.downLoop]
    by_cases hc : n ≤ 2 * i + 1
    · rw [if_pos hc]
      refine ⟨?_, List.Perm.refl _, rfl, fun _ _ => rfl⟩
      intro k hk0 hkn
      exact inv.1 k _ hk0 hkn rfl (by omega)
    · rw [if_neg hc]
      obtain ⟨j, hjdef, hjc, hjn, hjmin⟩ : ∃ j,
          j = (if 2 * i + 1 + 1 < n ∧ h.Less (2 * i + 1 + 1) (2 * i + 1) = true
            then 2 * i + 1 + 1 else 2 * i + 1) ∧
          (j = 2 * i + 1 ∨ j = 2 * i + 1 + 1) ∧ j < n ∧
          (∀ s, (s = 2 * i + 1 ∨ s = 2 * i + 1 + 1) → s < n → ¬ h.ltAt s j) := by
        refine ⟨_, rfl, ?_⟩
        split_ifs with hcond
        · obtain ⟨h1, h2⟩ := hcond
          rw [Less_iff] at h2
          refine ⟨Or.inr rfl, h1, ?_⟩
          rintro s (rfl | rfl) _
          · unfold nodeHeap.ltAt at h2 ⊢; omega
          · unfold nodeHeap.ltAt; omega
        · refine ⟨Or.inl rfl, by omega, ?_⟩
          rintro s (rfl | rfl) hs
          · unfold nodeHeap.ltAt; omega
          · have h2 : h.Less (2 * i + 1 + 1) (2 * i + 1) = false := by
              by_contra hne
              exact hcond ⟨hs, by simpa using hne⟩
            rw [Less_false_iff] at h2
            exact h2
      rw [← hjdef]
      by_cases hl : h.Less j i = false
      · rw [if_pos hl]
        refine ⟨?_, List.Perm.refl _, rfl, fun _ _ => rfl⟩
        rw [Less_false_iff] at hl
        intro k hk0 hkn
        by_cases hp : (k - 1) / 2 = i
        · have hs := hjmin k (by omega) hkn
          rw [hp]
          unfold nodeHeap.ltAt at hs hl ⊢
          omega
        · exact inv.1 k _ hk0 hkn rfl hp
      · rw [if_neg hl]
        have hlt : h.ltAt j i := by
          rw [← Less_iff]; simpa using hl
        have hi : i < h.items.length := by omega
        have hj : j < h.items.length := by omega
        have inv2 : DownInv (h.Swap i j) n j := by
          constructor
          · intro k p hk0 hkn hp hpj
            unfold nodeHeap.ltAt
            rw [Swap_cnt h i j k hi hj, Swap_cnt h i j p hi hj, Swap_sq h i j k hi hj,
              Swap_sq h i j p hi hj]
            simp only [hpj, if_false]
            by_cases hkj : k = j
            · have hpi : p = i := by omega
              simp only [hkj, hpi, if_true]
              unfold nodeHeap.ltAt at hlt
              omega
            · by_cases hki : k = i
              · subst hki
                have h2 := inv.2 j p (by omega) hjn (by omega) (by omega) (by omega)
                have hpi : p ≠ k := by omega
                simp only [hkj, hpi, if_true, if_false]
                unfold nodeHeap.ltAt at h2
                omega
              · by_cases hpi : p = i
                · have hs := hjmin k (by omega) hkn
                  simp only [hkj, hki, hpi, if_true, if_false]
                  unfold nodeHeap.ltAt at hs
                  omega
                · have h1 := inv.1 k p hk0 hkn hp hpi
                  simp only [hkj, hki, hpi, if_false]
                  unfold nodeHeap.ltAt at h1
                  omega
          · intro k p hk0 hkn hpk hj0 hp
            have hpi : p = i := by omega
            have h1 := inv.1 k j hk0 hkn hpk.symm (by omega)
            unfold nodeHeap.ltAt at h1 ⊢
            rw [Swap_cnt h i j k hi hj, Swap_cnt h i j p hi hj, Swap_sq h i j k hi hj,
              Swap_sq h i j p hi hj]
            have hkj : k ≠ j := by omega
            have hki : k ≠ i := by omega
            have hij : i ≠ j := by omega
            simp only [hkj, hki, hpi, hij, if_true, if_false]
            omega
        obtain ⟨r1, r2, r3, r4⟩ := ih (h.Swap i j) j n (by rw [Swap_length]; exact hn)
          (by omega) inv2
        refine ⟨r1, r2.trans ?_, r3, ?_⟩
        · exact swap_perm h.items i j hi hj
        · intro k hk
          rw [r4 k hk, Swap_getD h i j k hi hj]
          have hkj : k ≠ j := by omega
          have hki : k ≠ i := by omega
          simp only [hkj, hki, if_false]

theorem upLoop_spec (fuel : Nat) : ∀ (h : nodeHeap) (j n : Nat),
    n ≤ h.items.length → j < n → j < fuel → UpInv h n j →
    HeapUpTo (heap.upLoop fuel h j) n ∧
    (heap.upLoop fuel h j).items.Perm h.items ∧
    (heap.upLoop fuel h j).next = h.next := by
  induction fuel with
  | zero => intro h j n _ _ hf; omega
  | succ fuel ih =>
    intro h j n hn hjn hf inv
    rw [heap.upLoop]
    by_cases hc : (j - 1) / 2 = j ∨ h.Less j ((j - 1) / 2) = false
    · rw [if_pos hc]
      refine ⟨?_, List.Perm.refl _, rfl⟩
      intro k hk0 hkn
      by_cases hkj : k = j
      · subst hkj
        rcases hc with hc | hc
        · omega
        · rw [Less_false_iff] at hc
          exact hc
      · exact inv.1 k _ hk0 hkn rfl hkj
    · rw [if_neg hc]
      have hij : (j - 1) / 2 ≠ j := fun e => hc (Or.inl e)
      have hlt : h.ltAt j ((j - 1) / 2) := by
        rw [← Less_iff]
        by_contra hne
        exact hc (Or.inr (by simpa using hne))
      generalize hi : (j - 1) / 2 = i at hij hlt ⊢
      have hil : i < h.items.length := by omega
      have hjl : j < h.items.length := by omega
      have inv2 : UpInv (h.Swap i j) n i := by
        constructor
        · intro k p hk0 hkn hp hki
          unfold nodeHeap.ltAt
          rw [Swap_cnt h i j k hil hjl, Swap_cnt h i j p hil hjl, Swap_sq h i j k hil hjl,
            Swap_sq h i j p hil hjl]
          simp only [hki, if_false]
          by_cases hkj : k = j
          · have hpi : p = i := by omega
            have hpj : p ≠ j := by omega
            simp only [hkj, hpi, hij, if_true, if_false]
            unfold nodeHeap.ltAt at hlt
            omega
          · have h1 := inv.1 k p hk0 hkn hp hkj
            unfold nodeHeap.ltAt at h1 hlt
            by_cases hpj : p = j
            · have h2 := inv.2 k i hk0 hkn (by omega) (by omega) hi.symm
              unfold nodeHeap.ltAt at h2
              simp only [hkj, hpj, if_true, if_false]
              omega
            · by_cases hpi : p = i
              · subst hpi
                simp only [hkj, hpj, hij, if_true, if_false]
                omega
              · simp only [hkj, hpj, hpi, if_false]
                omega
        · intro k p hk0 hkn hpk hi0 hp
          have hpi : p ≠ i := by omega
          have hpj : p ≠ j := by omega
          have hki : k ≠ i := by omega
          have h0 := inv.1 i p hi0 (by omega) hp (by omega)
          unfold nodeHeap.ltAt at h0 hlt ⊢
          rw [Swap_cnt h i j k hil hjl, Swap_cnt h i j p hil hjl, Swap_sq h i j k hil hjl,
            Swap_sq h i j p hil hjl]
          by_cases hkj : k = j
          · simp only [hkj, hpi, hpj, if_true, if_false]
            omega
          · have h1 := inv.1 k i hk0 hkn hpk.symm hkj
            unfold nodeHeap.ltAt at h1
            simp only [hkj, hki, hpi, hpj, if_false]
            omega
      obtain ⟨r1, r2, r3⟩ := ih (h.Swap i j) i n (by rw [Swap_length]; exact hn)
        (by omega) (by omega) inv2
      exact ⟨r1, r2.trans (swap_perm h.items i j hil hjl), r3⟩

theorem HeapUpTo_root_min (h : nodeHeap) (n : Nat) (hh : HeapUpTo h n) :
    ∀ k, k < n → ¬ h.ltAt k 0 := by
  intro k
  induction k using Nat.strong_induction_on with
  | _ k ih =>
    intro hk
    by_cases hk0 : k = 0
    · subst hk0; unfold nodeHeap.ltAt; omega
    · have h1 := ih ((k - 1) / 2) (by omega) (by omega)
      have h2 := hh k (by omega) hk
      unfold nodeHeap.ltAt at h1 h2 ⊢
      omega

theorem WF_empty : nodeHeap.WF { items := [], next := 0 } := by
  refine ⟨?_, ?_, ?_⟩
  · intro k _ hk; simp at hk
  · intro it hit; simp at hit
  · simp

theorem heap_Init_empty : heap.Init { items := [], next := 0 } = { items := [], next := 0 } := by
  rfl

theorem heap_Push_spec (h : nodeHeap) (x : huffNode) (hw : h.WF) :
    (heap.Push h x).WF ∧ (heap.Push h x).items.Perm ((x, h.next) :: h.items) ∧
    (heap.Push h x).next = h.next + 1 := by
  obtain ⟨hh, hs, hn⟩ := hw
  have hlen : (h.Push x).items.length = h.items.length + 1 := by simp [nodeHeap.Push]
  have hget : ∀ k, k < h.items.length →
      (h.Push x).items.getD k heapItem.dflt = h.items.getD k heapItem.dflt := by
    intro k hk
    exact List.getD_append _ _ _ _ hk
  have inv : UpInv (h.Push x) (h.items.length + 1) h.items.length := by
    constructor
    · intro k p hk0 hkn hp hkj
      have h1 := hh k hk0 (by omega)
      unfold nodeHeap.ltAt nodeHeap.cnt nodeHeap.sq at h1 ⊢
      rw [hget k (by omega), hget p (by omega)]
      rw [← hp] at h1
      exact h1
    · intro k p hk0 hkn hpk
      omega
  obtain ⟨r1, r2, r3⟩ := upLoop_spec (h.items.length + 1) (h.Push x) h.items.length
    (h.items.length + 1) (by omega) (by omega) (by omega) inv
  have hP : (heap.Push h x).items.Perm ((x, h.next) :: h.items) := by
    unfold heap.Push heap.up nodeHeap.Len
    rw [hlen]
    refine r2.trans ?_
    exact List.perm_append_comm
  have hN : (heap.Push h x).next = h.next + 1 := by
    unfold heap.Push heap.up nodeHeap.Len
    rw [hlen]
    exact r3
  refine ⟨⟨?_, ?_, ?_⟩, hP, hN⟩
  · rw [hP.length_eq]
    unfold heap.Push heap.up nodeHeap.Len
    rw [hlen]
    simpa using r1
  · intro it hit
    rw [hN]
    rcases List.mem_cons.mp (hP.mem_iff.mp hit) with e | e
    · subst e; simp
    · exact Nat.lt_succ_of_lt (hs it e)
  · have := (hP.map Prod.snd).nodup_iff
    rw [this]
    simp only [List.map_cons, List.nodup_cons]
    refine ⟨?_, hn⟩
    intro hmem
    obtain ⟨it, hit, e⟩ := List.mem_map.mp hmem
    have := hs it hit
    omega

theorem heap_Pop_spec (h : nodeHeap) (hw : h.WF) (hne : 0 < h.items.length) :
    ∃ x s g, heap.Pop h = some (x, g) ∧ g.WF ∧ h.items.Perm ((x, s) :: g.items) ∧
      g.next = h.next ∧ (x, s) = h.items.getD 0 heapItem.dflt ∧
      (∀ it ∈ g.items, x.count < it.1.count ∨ (x.count = it.1.count ∧ s < it.2)) := by
  obtain ⟨hh, hs, hnd⟩ := hw
  obtain ⟨n, hn⟩ : ∃ n, h.items.length = n + 1 := ⟨h.items.length - 1, by omega⟩
  have h0l : 0 < h.items.length := hne
  have hnl : n < h.items.length := by omega
  have inv : DownInv (h.Swap 0 n) n 0 := by
    constructor
    · intro k p hk0 hkn hp hp0
      have h1 := hh k hk0 (by omega)
      rw [← hp] at h1
      unfold nodeHeap.ltAt at h1 ⊢
      rw [Swap_cnt h 0 n k h0l hnl, Swap_cnt h 0 n p h0l hnl, Swap_sq h 0 n k h0l hnl,
        Swap_sq h 0 n p h0l hnl]
      have e1 : k ≠ n := by omega
      have e2 : k ≠ 0 := by omega
      have e3 : p ≠ n := by omega
      simp only [e1, e2, e3, hp0, if_false]
      exact h1
    · intro k p _ _ _ h00
      omega
  obtain ⟨r1, r2, r3, r4⟩ := downLoop_spec n (h.Swap 0 n) 0 n
    (by rw [Swap_length]; omega) (by omega) inv
  generalize hg2 : heap.downLoop n (h.Swap 0 n) 0 n = h2 at r1 r2 r3 r4
  have hlen2 : h2.items.length = n + 1 := by
    rw [r2.length_eq, Swap_length]; exact hn
  have hlast : h2.items.getD n heapItem.dflt = h.items.getD 0 heapItem.dflt := by
    rw [r4 n le_rfl, Swap_getD h 0 n n h0l hnl]; simp
  have hgl : h2.items.getLast? = some (h.items.getD 0 heapItem.dflt) := by
    rw [List.getLast?_eq_getElem?, hlen2, ← hlast, List.getD_eq_getElem?_getD,
      Nat.add_sub_cancel, List.getElem?_eq_getElem (by omega)]
    simp
  have hPop : heap.Pop h = some ((h.items.getD 0 heapItem.dflt).1,
      { items := h2.items.dropLast, next := h2.next }) := by
    unfold heap.Pop nodeHeap.Len heap.down
    rw [if_neg (by omega)]
    simp only [hn, Nat.add_sub_cancel]
    rw [hg2]
    unfold nodeHeap.Pop
    rw [hgl]
  have hsplit : h2.items.dropLast ++ [h.items.getD 0 heapItem.dflt] = h2.items :=
    List.dropLast_append_getLast? _ (by rw [hgl]; rfl)
  have hperm : h.items.Perm (h.items.getD 0 heapItem.dflt :: h2.items.dropLast) := by
    refine ((swap_perm h.items 0 n h0l hnl).symm.trans r2.symm).trans ?_
    rw [← hsplit]
    simp only [List.dropLast_concat]
    exact List.perm_append_comm
  have hnd2 : (List.map Prod.snd (h.items.getD 0 heapItem.dflt :: h2.items.dropLast)).Nodup :=
    ((hperm.map Prod.snd).nodup_iff).mp hnd
  refine ⟨(h.items.getD 0 heapItem.dflt).1, (h.items.getD 0 heapItem.dflt).2,
    { items := h2.items.dropLast, next := h2.next }, hPop, ⟨?_, ?_, ?_⟩, hperm, ?_, rfl, ?_⟩
  · intro k hk0 hkn
    have hdl : h2.items.dropLast.length = n := by
      rw [List.length_dropLast, hlen2, Nat.add_sub_cancel]
    simp only at hkn
    rw [hdl] at hkn
    have h1 := r1 k hk0 hkn
    have hget : ∀ m, m < n → (h2.items.dropLast).getD m heapItem.dflt =
        h2.items.getD m heapItem.dflt := by
      intro m hm
      conv_rhs => rw [← hsplit]
      exact (List.getD_append _ _ _ _ (by omega)).symm
    unfold nodeHeap.ltAt nodeHeap.cnt nodeHeap.sq at h1 ⊢
    simp only
    rw [hget k hkn, hget _ (by omega)]
    exact h1
  · intro it hit
    simp only at hit ⊢
    rw [r3]
    exact hs it (hperm.mem_iff.mpr (List.mem_cons_of_mem _ hit))
  · simp only [List.map_cons, List.nodup_cons] at hnd2
    exact hnd2.2
  · simp only [r3]; rfl
  · intro it hit
    simp only at hit
    have hmem : it ∈ h.items := hperm.mem_iff.mpr (List.mem_cons_of_mem _ hit)
    obtain ⟨k, hk, e⟩ := List.mem_iff_getElem.mp hmem
    have hmin := HeapUpTo_root_min h _ hh k hk
    have hne2 : it.2 ≠ (h.items.getD 0 heapItem.dflt).2 := by
      simp only [List.map_cons, List.nodup_cons] at hnd2
      intro e2
      exact hnd2.1 (e2 ▸ List.mem_map_of_mem Prod.snd hit)
    unfold nodeHeap.ltAt nodeHeap.cnt nodeHeap.sq at hmin
    rw [List.getD_eq_getElem _ _ hk, e] at hmin
    omega

/-! ## The merge loop refines the merge process -/

theorem nodes_of_perm (h : nodeHeap) (x : huffNode) (s : Nat) (l : List heapItem)
    (hp : h.items.Perm ((x, s) :: l)) :
    h.nodes = x ::ₘ (↑(l.map Prod.fst) : Multiset huffNode) := by
  unfold nodeHeap.nodes
  rw [Multiset.cons_coe]
  exact Multiset.coe_eq_coe.mpr (by simpa using hp.map Prod.fst)

theorem mergeLoop_spec (fuel : Nat) : ∀ nh : nodeHeap, nh.WF → 0 < nh.items.length →
    nh.items.length ≤ fuel + 1 →
    ∃ g t s, mergeLoop fuel nh = some g ∧ g.WF ∧ g.items = [(t, s)] ∧ Builds nh.nodes t := by
  induction fuel with
  | zero =>
    intro nh hw h0 h1
    have hlen : nh.items.length = 1 := by omega
    obtain ⟨it, hit⟩ := List.length_eq_one.mp hlen
    refine ⟨nh, it.1, it.2, ?_, hw, hit, ?_⟩
    · simp [mergeLoop, nodeHeap.Len, hlen]
    · unfold nodeHeap.nodes
      rw [hit]
      exact Builds.done _
  | succ fuel ih =>
    intro nh hw h0 h1
    rw [mergeLoop]
    by_cases hc : 1 < nh.Len
    · rw [if_pos hc]
      unfold nodeHeap.Len at hc
      obtain ⟨a, s1, g1, e1, w1, p1, n1, _, m1⟩ := heap_Pop_spec nh hw h0
      have l1 : g1.items.length + 1 = nh.items.length := by
        have := p1.length_eq
        simp at this
        omega
      obtain ⟨b, s2, g2, e2, w2, p2, n2, _, m2⟩ := heap_Pop_spec g1 w1 (by omega)
      have l2 : g2.items.length + 1 = g1.items.length := by
        have := p2.length_eq
        simp at this
        omega
      obtain ⟨w3, p3, n3⟩ := heap_Push_spec g2 (mergeNodes a b) w2
      have l3 : (heap.Push g2 (mergeNodes a b)).items.length = g2.items.length + 1 := by
        have := p3.length_eq
        simpa using this
      obtain ⟨g, t, s, e4, w4, i4, b4⟩ := ih (heap.Push g2 (mergeNodes a b)) w3
        (by omega) (by omega)
      refine ⟨g, t, s, ?_, w4, i4, ?_⟩
      · simp only [e1, e2]
        exact e4
      · rw [nodes_of_perm nh a s1 _ p1]
        have hg1 : (↑(g1.items.map Prod.fst) : Multiset huffNode) =
            b ::ₘ (↑(g2.items.map Prod.fst) : Multiset huffNode) :=
          nodes_of_perm g1 b s2 _ p2
        rw [hg1]
        rw [nodes_of_perm _ _ _ _ p3] at b4
        refine Builds.step a b _ t ?_ ?_ b4
        · intro x hx
          rw [← hg1] at hx
          obtain ⟨it, hit, rfl⟩ := List.mem_map.mp (Multiset.mem_coe.mp hx)
          have := m1 it hit
          omega
        · intro x hx
          obtain ⟨it, hit, rfl⟩ := List.mem_map.mp (Multiset.mem_coe.mp hx)
          have := m2 it hit
          omega
    · rw [if_neg hc]
      unfold nodeHeap.Len at hc
      have hlen : nh.items.length = 1 := by omega
      obtain ⟨it, hit⟩ := List.length_eq_one.mp hlen
      refine ⟨nh, it.1, it.2, rfl, hw, hit, ?_⟩
      unfold nodeHeap.nodes
      rw [hit]
      exact Builds.done _

theorem foldl_Push_spec (nodes : List huffNode) : ∀ h : nodeHeap, h.WF →
    (nodes.foldl heap.Push h).WF ∧
    (nodes.foldl heap.Push h).nodes = (↑nodes : Multiset huffNode) + h.nodes := by
  induction nodes with
  | nil => intro h hw; exact ⟨hw, by simp⟩
  | cons x xs ih =>
    intro h hw
    obtain ⟨w1, p1, _⟩ := heap_Push_spec h x hw
    obtain ⟨w2, e2⟩ := ih (heap.Push h x) w1
    refine ⟨w2, ?_⟩
    rw [List.foldl_cons, e2, nodes_of_perm _ _ _ _ p1]
    unfold nodeHeap.nodes
    rw [← Multiset.cons_coe, Multiset.cons_add, Multiset.add_cons]

theorem makeTreeFromNodeSlice_builds (nodes : List huffNode) (hne : nodes ≠ []) :
    ∃ t, makeTreeFromNodeSlice nodes = some (some { root := t }, none) ∧
      Builds (↑nodes) t := by
  have hlen : 0 < nodes.length := List.length_pos.mpr hne
  obtain ⟨w0, e0⟩ := foldl_Push_spec nodes _ WF_empty
  have hcard : (nodes.foldl heap.Push { items := [], next := 0 }).items.length =
      nodes.length := by
    have := congrArg Multiset.card e0
    simpa [nodeHeap.nodes] using this
  obtain ⟨g, t, s, e1, w1, i1, b1⟩ := mergeLoop_spec nodes.length _ w0 (by omega) (by omega)
  obtain ⟨x, s2, g2, e2, _, p2, _, hx, _⟩ := heap_Pop_spec g w1 (by rw [i1]; simp)
  have hxt : x = t := by
    rw [i1] at hx
    simp at hx
    exact hx.1
  refine ⟨t, ?_, ?_⟩
  · unfold makeTreeFromNodeSlice
    rw [if_neg (by omega), heap_Init_empty]
    simp only [e1, e2, hxt]
  · rw [e0] at b1
    simpa [nodeHeap.nodes] using b1

/-! ## Leaves, weight and cost -/

theorem isLeaf_iff (x : huffNode) : x.isLeaf = true ↔ ∃ c k, x = huffNode.leaf c k := by
  cases x with
  | nil => simp [huffNode.isLeaf, huffNode.leaf]
  | mk c k l r =>
    cases l <;> cases r <;> simp [huffNode.isLeaf, huffNode.leaf]

theorem leavesAt_shift (t : huffNode) : ∀ d,
    t.leavesAt d = (t.leavesAt 0).map (fun p => (p.1, p.2 + d)) := by
  induction t with
  | nil => intro d; simp [huffNode.leavesAt]
  | mk c k l r ihl ihr =>
    intro d
    by_cases h : l = .nil ∧ r = .nil
    · simp [huffNode.leavesAt, h]
    · simp only [huffNode.leavesAt, h, if_false, List.map_append]
      rw [ihl (d + 1), ihr (d + 1), ihl (0 + 1), ihr (0 + 1)]
      simp only [List.map_map]
      congr 1 <;> (apply List.map_congr_left; intro p _; simp; omega)

theorem leaves_leaf (c : Byte) (k : Nat) : (huffNode.leaf c k).leaves = [huffNode.leaf c k] := by
  simp [huffNode.leaves, huffNode.leavesAt, huffNode.leaf]

theorem leavesAt_mergeNodes (a b : huffNode) (ha : a ≠ .nil) (d : Nat) :
    (mergeNodes a b).leavesAt d = a.leavesAt (d + 1) ++ b.leavesAt (d + 1) := by
  simp [mergeNodes, huffNode.leavesAt, ha]

theorem leaves_mergeNodes (a b : huffNode) (ha : a ≠ .nil) :
    (mergeNodes a b).leaves = a.leaves ++ b.leaves := by
  unfold huffNode.leaves
  rw [leavesAt_mergeNodes a b ha, leavesAt_shift a 1, leavesAt_shift b 1]
  simp [List.map_map, Function.comp_def]

theorem weight_mergeNodes (a b : huffNode) (ha : a ≠ .nil) :
    (mergeNodes a b).weight = a.weight + b.weight := by
  simp [huffNode.weight, leaves_mergeNodes a b ha]

theorem cost_mergeNodes (a b : huffNode) (ha : a ≠ .nil) :
    (mergeNodes a b).cost = a.cost + b.cost + a.weight + b.weight := by
  have key : ∀ t : huffNode, ((t.leavesAt 1).map (fun p => p.1.count * p.2)).sum =
      t.cost + t.weight := by
    intro t
    rw [leavesAt_shift t 1]
    unfold huffNode.cost huffNode.weight huffNode.leaves
    simp only [List.map_map]
    induction t.leavesAt 0 with
    | nil => simp
    | cons p ps ih =>
      simp only [List.map_cons, List.sum_cons, Function.comp_apply] at ih ⊢
      rw [ih]
      ring
  unfold huffNode.cost
  rw [leavesAt_mergeNodes a b ha, List.map_append, List.sum_append]
  have ka := key a
  have kb := key b
  simp only [Nat.zero_add]
  rw [ka, kb]
  unfold huffNode.cost
  ring

theorem Builds_preserves (P : huffNode → Prop)
    (hm : ∀ a b, P a → P b → P (mergeNodes a b)) {F : Multiset huffNode} {t : huffNode}
    (hb : Builds F t) : (∀ x ∈ F, P x) → P t := by
  induction hb with
  | done t => intro h; exact h t (by simp)
  | step a b R t _ _ _ ih =>
    intro h
    apply ih
    intro x hx
    rcases Multiset.mem_cons.mp hx with e | e
    · subst e
      exact hm a b (h a (by simp)) (h b (by simp))
    · exact h x (by simp [e])

/-! ## The frequency map -/

theorem valOf_incrCount (m : List (Byte × Nat)) (b k : Byte) :
    valOf (incrCount m b) k =
      if k = b then some (((valOf m b).getD 0 + 1) % uint32Mod) else valOf m k := by
  induction m with
  | nil =>
    by_cases h : k = b
    · subst h; simp [incrCount, valOf]
    · simp [incrCount, valOf, h, Ne.symm h]
  | cons p rest ih =>
    obtain ⟨k0, v0⟩ := p
    by_cases h0 : k0 = b
    · subst h0
      by_cases h : k = k0
      · subst h; simp [incrCount, valOf]
      · simp [incrCount, valOf, h, Ne.symm h]
    · by_cases h : k = b
      · subst h
        simp [incrCount, valOf, h0, ih]
      · simp [incrCount, valOf, h0, ih, h]

theorem keys_incrCount (m : List (Byte × Nat)) (b : Byte) :
    (incrCount m b).map Prod.fst =
      if b ∈ m.map Prod.fst then m.map Prod.fst else m.map Prod.fst ++ [b] := by
  induction m with
  | nil => simp [incrCount]
  | cons p rest ih =>
    obtain ⟨k0, v0⟩ := p
    by_cases h0 : k0 = b
    · subst h0; simp [incrCount]
    · have h1 : ¬ b = k0 := fun e => h0 e.symm
      simp only [incrCount, h0, if_false, List.map_cons, ih, List.mem_cons, h1, false_or]
      split_ifs <;> simp

theorem keys_incrCount_nodup (m : List (Byte × Nat)) (b : Byte)
    (h : (m.map Prod.fst).Nodup) : ((incrCount m b).map Prod.fst).Nodup := by
  rw [keys_incrCount]
  split_ifs with hb
  · exact h
  · exact List.Nodup.append h (by simp) (by simpa using hb)

theorem mem_iff_valOf (m : List (Byte × Nat)) (h : (m.map Prod.fst).Nodup) (k : Byte)
    (v : Nat) : (k, v) ∈ m ↔ valOf m k = some v := by
  induction m with
  | nil => simp [valOf]
  | cons p rest ih =>
    obtain ⟨k0, v0⟩ := p
    simp only [List.map_cons, List.nodup_cons] at h
    by_cases h0 : k0 = k
    · subst h0
      simp only [valOf, if_true, List.mem_cons, Prod.mk.injEq, true_and, Option.some.injEq]
      constructor
      · rintro (e | e)
        · exact e.symm
        · exact absurd (List.mem_map_of_mem Prod.fst e) h.1
      · intro e; exact Or.inl e.symm
    · have h1 : ¬ k = k0 := fun e => h0 e.symm
      simp [valOf, h0, h1, ih h.2]

theorem countBytes_append (buf : List Byte) (b : Byte) :
    countBytes (buf ++ [b]) = incrCount (countBytes buf) b := by
  simp [countBytes, List.foldl_append]

theorem countBytes_nodup (buf : List Byte) : ((countBytes buf).map Prod.fst).Nodup := by
  induction buf using List.reverseRecOn with
  | nil => simp [countBytes]
  | append_singleton l a ih =>
    rw [countBytes_append]
    exact keys_incrCount_nodup _ _ ih

theorem valOf_countBytes (buf : List Byte) (k : Byte) :
    valOf (countBytes buf) k =
      if k ∈ buf then some (buf.count k % uint32Mod) else none := by
  induction buf using List.reverseRecOn with
  | nil => simp [countBytes, valOf]
  | append_singleton l a ih =>
    rw [countBytes_append, valOf_incrCount]
    by_cases h : k = a
    · subst h
      rw [ih]
      simp only [if_true, List.mem_append, List.mem_singleton, or_true, List.count_append,
        List.count_singleton_self]
      by_cases hm : k ∈ l
      · simp only [hm, if_true, Option.getD_some, uint32Mod]
        congr 1
        omega
      · simp only [hm, if_false, Option.getD_none, uint32Mod]
        rw [List.count_eq_zero_of_not_mem hm]
    · rw [ih]
      simp [h, List.count_append, List.count_singleton, Ne.symm h]

theorem mem_countBytes (buf : List Byte) (k : Byte) (v : Nat) :
    (k, v) ∈ countBytes buf ↔ k ∈ buf ∧ v = buf.count k % uint32Mod := by
  rw [mem_iff_valOf _ (countBytes_nodup buf), valOf_countBytes]
  by_cases h : k ∈ buf
  · simp [h, eq_comm]
  · simp [h]

theorem countBytes_ne_nil (buf : List Byte) (h : buf ≠ []) : countBytes buf ≠ [] := by
  obtain ⟨k, hk⟩ := List.exists_mem_of_ne_nil buf h
  have := (mem_countBytes buf k _).mpr ⟨hk, rfl⟩
  exact List.ne_nil_of_mem this

theorem countBytes_replicate (n : Nat) (b : Byte) (hn : 0 < n) :
    countBytes (List.replicate n b) = [(b, n % uint32Mod)] := by
  induction n with
  | zero => omega
  | succ n ih =>
    rw [List.replicate_succ', countBytes_append]
    by_cases h0 : n = 0
    · subst h0; simp [countBytes, incrCount]
    · rw [ih (by omega)]
      simp only [incrCount, if_true, uint32Mod]
      congr 2
      omega

/-! ## Invariants of the merge process -/

theorem mergeNodes_ne_nil (a b : huffNode) : mergeNodes a b ≠ .nil := by
  simp [mergeNodes]

theorem StrictMod_ne_nil (x : huffNode) (h : x.StrictMod) : x ≠ .nil := by
  cases x with
  | nil => simp [huffNode.StrictMod] at h
  | mk c k l r => simp

theorem StrictSum_ne_nil (x : huffNode) (h : x.StrictSum) : x ≠ .nil := by
  cases x with
  | nil => simp [huffNode.StrictSum] at h
  | mk c k l r => simp

theorem Strict_ne_nil (x : huffNode) (h : x.Strict) : x ≠ .nil := by
  cases x with
  | nil => simp [huffNode.Strict] at h
  | mk c k l r => simp

theorem StrictMod_mergeNodes (a b : huffNode) (ha : a.StrictMod) (hb : b.StrictMod) :
    (mergeNodes a b).StrictMod := by
  unfold mergeNodes
  simp only [huffNode.StrictMod]
  exact Or.inr ⟨ha, hb, trivial⟩

theorem StrictMod_Strict (x : huffNode) (h : x.StrictMod) : x.Strict := by
  induction x with
  | nil => simp [huffNode.StrictMod] at h
  | mk c k l r ihl ihr =>
    simp only [huffNode.StrictMod] at h
    simp only [huffNode.Strict]
    rcases h with h | ⟨h1, h2, _⟩
    · exact Or.inl h
    · exact Or.inr ⟨ihl h1, ihr h2⟩

theorem leaf_facts (x : huffNode) (h : x.isLeaf = true) :
    x ≠ .nil ∧ x.StrictMod ∧ x.StrictSum ∧ x.leaves = [x] ∧ x.weight = x.count ∧
      x.cost = 0 := by
  obtain ⟨c, k, rfl⟩ := (isLeaf_iff x).mp h
  refine ⟨by simp [huffNode.leaf], ?_, ?_, leaves_leaf c k, ?_, ?_⟩
  · simp [huffNode.leaf, huffNode.StrictMod]
  · simp [huffNode.leaf, huffNode.StrictSum]
  · rw [huffNode.weight, leaves_leaf]
    simp [huffNode.leaf, huffNode.count]
  · simp [huffNode.cost, huffNode.leavesAt, huffNode.leaf]

theorem Builds_leaves {F : Multiset huffNode} {t : huffNode} (hb : Builds F t) :
    (∀ x ∈ F, x ≠ .nil) → forestLeaves F = ↑t.leaves := by
  induction hb with
  | done t => intro _; simp [forestLeaves]
  | step a b R t _ _ _ ih =>
    intro h
    have ha : a ≠ .nil := h a (by simp)
    rw [← ih ?_]
    · simp only [forestLeaves, Multiset.cons_bind, leaves_mergeNodes a b ha]
      rw [← Multiset.coe_add, add_assoc]
    · intro x hx
      rcases Multiset.mem_cons.mp hx with e | e
      · subst e; exact mergeNodes_ne_nil a b
      · exact h x (by simp [e])

theorem forestLeaves_of_leaves (nodes : List huffNode) (hl : ∀ x ∈ nodes, x.isLeaf = true) :
    forestLeaves (↑nodes) = (↑nodes : Multiset huffNode) := by
  induction nodes with
  | nil => simp [forestLeaves]
  | cons x xs ih =>
    have hx := (leaf_facts x (hl x (by simp))).2.2.2.1
    have := ih (fun y hy => hl y (by simp [hy]))
    rw [← Multiset.cons_coe]
    unfold forestLeaves at this ⊢
    rw [Multiset.cons_bind, this, hx]
    rfl

theorem Builds_singleton {F : Multiset huffNode} {t : huffNode} (hb : Builds F t)
    (x : huffNode) (hF : F = {x}) : t = x := by
  induction hb with
  | done t => exact Multiset.singleton_inj.mp hF
  | step a b R t _ _ _ _ =>
    have := congrArg Multiset.card hF
    simp at this

/-- What `makeTreeFromNodeSlice` returns on a non-empty slice of leaf nodes:
a tree whose root is not nil, every node of which is a leaf or has two
children and their `uint32` sum as count, and whose leaves are the nodes of
the slice. -/
theorem makeTree_of_leaves (nodes : List huffNode) (hl : ∀ x ∈ nodes, x.isLeaf = true)
    (hne : nodes ≠ []) :
    ∃ t, makeTreeFromNodeSlice nodes = some (some { root := t }, none) ∧
      Builds (↑nodes) t ∧ t ≠ .nil ∧ t.StrictMod ∧
      (↑t.leaves : Multiset huffNode) = ↑nodes := by
  obtain ⟨t, e, hb⟩ := makeTreeFromNodeSlice_builds nodes hne
  have hsm : t.StrictMod := Builds_preserves huffNode.StrictMod StrictMod_mergeNodes hb
    (fun x hx => (leaf_facts x (hl x (Multiset.mem_coe.mp hx))).2.1)
  refine ⟨t, e, hb, StrictMod_ne_nil t hsm, hsm, ?_⟩
  rw [← Builds_leaves hb (fun x hx => (leaf_facts x (hl x (Multiset.mem_coe.mp hx))).1)]
  exact forestLeaves_of_leaves nodes hl

theorem nodesOfCounts_isLeaf (r : MapRange) (m : List (Byte × Nat)) :
    ∀ x ∈ nodesOfCounts r m, x.isLeaf = true := by
  intro x hx
  obtain ⟨kv, _, rfl⟩ := List.mem_map.mp hx
  exact (isLeaf_iff _).mpr ⟨kv.1, kv.2, rfl⟩

theorem nodesOfCounts_ne_nil (r : MapRange) (m : List (Byte × Nat)) (h : m ≠ []) :
    nodesOfCounts r m ≠ [] := by
  intro e
  have h1 := congrArg List.length e
  simp only [nodesOfCounts, List.length_map, (r.perm m).length_eq, List.length_nil] at h1
  exact h (List.length_eq_zero.mp h1)

theorem mem_nodesOfCounts (r : MapRange) (m : List (Byte × Nat)) (x : huffNode) :
    x ∈ nodesOfCounts r m ↔ ∃ k v, (k, v) ∈ m ∧ x = huffNode.leaf k v := by
  unfold nodesOfCounts
  rw [List.mem_map]
  constructor
  · rintro ⟨kv, hkv, rfl⟩
    exact ⟨kv.1, kv.2, (r.perm m).mem_iff.mp hkv, rfl⟩
  · rintro ⟨k, v, hkv, rfl⟩
    exact ⟨(k, v), (r.perm m).mem_iff.mpr hkv, rfl⟩

theorem nodesOfCounts_chars (r : MapRange) (m : List (Byte × Nat)) :
    ((nodesOfCounts r m).map huffNode.char).Perm (m.map Prod.fst) := by
  unfold nodesOfCounts
  rw [List.map_map]
  have : (huffNode.char ∘ fun kv : Byte × Nat => huffNode.leaf kv.1 kv.2) = Prod.fst := by
    funext kv; rfl
  rw [this]
  exact (r.perm m).map Prod.fst

theorem makeTree_singleton (x : huffNode) :
    makeTreeFromNodeSlice [x] = some (some { root := x }, none) := by
  obtain ⟨t, e, hb⟩ := makeTreeFromNodeSlice_builds [x] (by simp)
  rw [e, Builds_singleton hb x rfl]

/-! ## Empty input, leaf set and frequencies -/

theorem MakeTreeFromText_ok (r : MapRange) (buf : List Byte) :
    MakeTreeFromText r (.ok buf) = makeTreeFromNodeSlice (nodesOfCounts r (countBytes buf)) :=
  rfl

theorem makeTree_nil : makeTreeFromNodeSlice [] = some (none, some "Invalid node slice.") :=
  rfl

theorem nodesOfCounts_nil (r : MapRange) : nodesOfCounts r [] = [] := by
  have := (r.perm []).length_eq
  simp only [List.length_nil] at this
  simp [nodesOfCounts, List.length_eq_zero.mp this]

/-- C2. Given that the file was read, `MakeTreeFromText` returns an error if
and only if the input has no byte, and then the tree is nil; on every
non-empty input it returns no error and a tree whose root is not nil.
Likewise `makeTreeFromNodeSlice` returns an error exactly on the empty
slice. -/
theorem C2_empty_input_rejected (r : MapRange) (buf : List Byte) :
    ((∃ t e, MakeTreeFromText r (.ok buf) = some (t, some e)) ↔ buf = []) ∧
    (buf = [] → MakeTreeFromText r (.ok buf) = some (none, some "Invalid node slice.")) ∧
    (buf ≠ [] → ∃ t, MakeTreeFromText r (.ok buf) = some (some { root := t }, none) ∧
      t ≠ huffNode.nil) ∧
    (∀ nodes : List huffNode,
      (∃ t e, makeTreeFromNodeSlice nodes = some (t, some e)) ↔ nodes.length = 0) := by
  have hpos : buf ≠ [] → ∃ t, MakeTreeFromText r (.ok buf) =
      some (some { root := t }, none) ∧ t ≠ huffNode.nil := by
    intro hne
    obtain ⟨t, e, _, hnn, _, _⟩ := makeTree_of_leaves (nodesOfCounts r (countBytes buf))
      (nodesOfCounts_isLeaf r _) (nodesOfCounts_ne_nil r _ (countBytes_ne_nil buf hne))
    exact ⟨t, e, hnn⟩
  have hnil : buf = [] → MakeTreeFromText r (.ok buf) =
      some (none, some "Invalid node slice.") := by
    intro e
    subst e
    rw [MakeTreeFromText_ok]
    have : countBytes [] = [] := rfl
    rw [this, nodesOfCounts_nil, makeTree_nil]
  refine ⟨⟨?_, fun e => ⟨none, _, hnil e⟩⟩, hnil, hpos, ?_⟩
  · rintro ⟨t, e, h⟩
    by_contra hne
    obtain ⟨t2, e2, _⟩ := hpos hne
    rw [e2] at h
    simp at h
  · intro nodes
    constructor
    · rintro ⟨t, e, h⟩
      by_contra hne
      obtain ⟨t2, e2, _⟩ := makeTreeFromNodeSlice_builds nodes
        (fun e => hne (by simp [e]))
      rw [e2] at h
      simp at h
    · intro e
      rw [List.length_eq_zero.mp e, makeTree_nil]
      exact ⟨none, _, rfl⟩

/-- C5. On a non-empty slice of leaf nodes the leaves of the tree
`makeTreeFromNodeSlice` returns are, as a multiset, the nodes of the slice;
and for every non-empty input the leaves of the tree `MakeTreeFromText`
builds carry pairwise distinct symbols, which are exactly the byte values
occurring in the input. -/
theorem C5_leaf_set :
    (∀ nodes : List huffNode, (∀ x ∈ nodes, x.isLeaf = true) → nodes ≠ [] →
      ∃ t, makeTreeFromNodeSlice nodes = some (some { root := t }, none) ∧
        (↑t.leaves : Multiset huffNode) = ↑nodes) ∧
    (∀ (r : MapRange) (buf : List Byte), buf ≠ [] →
      ∃ t, MakeTreeFromText r (.ok buf) = some (some { root := t }, none) ∧
        (∀ x ∈ t.leaves, x.isLeaf = true) ∧
        (t.leaves.map huffNode.char).Nodup ∧
        (∀ b, b ∈ t.leaves.map huffNode.char ↔ b ∈ buf)) := by
  constructor
  · intro nodes hl hne
    obtain ⟨t, e, _, _, _, hlv⟩ := makeTree_of_leaves nodes hl hne
    exact ⟨t, e, hlv⟩
  · intro r buf hne
    obtain ⟨t, e, _, _, _, hlv⟩ := makeTree_of_leaves (nodesOfCounts r (countBytes buf))
      (nodesOfCounts_isLeaf r _) (nodesOfCounts_ne_nil r _ (countBytes_ne_nil buf hne))
    have hp : t.leaves.Perm (nodesOfCounts r (countBytes buf)) := Multiset.coe_eq_coe.mp hlv
    have hc : (t.leaves.map huffNode.char).Perm ((countBytes buf).map Prod.fst) :=
      (hp.map huffNode.char).trans (nodesOfCounts_chars r _)
    refine ⟨t, e, ?_, hc.nodup_iff.mpr (countBytes_nodup buf), ?_⟩
    · intro x hx
      exact nodesOfCounts_isLeaf r _ x (hp.mem_iff.mp hx)
    · intro b
      rw [hc.mem_iff, List.mem_map]
      constructor
      · rintro ⟨kv, hkv, rfl⟩
        exact ((mem_countBytes buf kv.1 kv.2).mp hkv).1
      · intro hb
        exact ⟨(b, _), (mem_countBytes buf b _).mpr ⟨hb, rfl⟩, rfl⟩

theorem C5_leaf_set_witness :
    (∃ t, makeTreeFromNodeSlice [huffNode.leaf 97 2, huffNode.leaf 98 1] =
        some (some { root := t }, none) ∧
        (↑t.leaves : Multiset huffNode) = ↑[huffNode.leaf 97 2, huffNode.leaf 98 1]) ∧
    (∃ t, MakeTreeFromText MapRange.inOrder (.ok [97, 98, 97]) =
        some (some { root := t }, none) ∧
        (∀ x ∈ t.leaves, x.isLeaf = true) ∧
        (t.leaves.map huffNode.char).Nodup ∧
        (∀ b, b ∈ t.leaves.map huffNode.char ↔ b ∈ ([97, 98, 97] : List Byte))) :=
  ⟨C5_leaf_set.1 [huffNode.leaf 97 2, huffNode.leaf 98 1] (by decide) (by decide),
   C5_leaf_set.2 MapRange.inOrder [97, 98, 97] (by decide)⟩

/-- C6. For an input of fewer than `2 ^ 32` bytes the map `counts` has one
entry per byte value occurring in the input and no other, every stored count
is positive and equals the number of occurrences of its byte, and every leaf
of the tree built carries the number of occurrences of its symbol. -/
theorem C6_frequency_counting (r : MapRange) (buf : List Byte)
    (hlen : buf.length < 2 ^ 32) :
    ((countBytes buf).map Prod.fst).Nodup ∧
    (∀ b, (∃ v, (b, v) ∈ countBytes buf) ↔ b ∈ buf) ∧
    (∀ b v, (b, v) ∈ countBytes buf → 0 < v ∧ v = buf.count b) ∧
    (buf ≠ [] → ∃ t, MakeTreeFromText r (.ok buf) = some (some { root := t }, none) ∧
      ∀ x ∈ t.leaves, x.isLeaf = true ∧ x.char ∈ buf ∧ x.count = buf.count x.char) := by
  have hmod : ∀ b, buf.count b % uint32Mod = buf.count b := by
    intro b
    have := List.count_le_length b buf
    apply Nat.mod_eq_of_lt
    unfold uint32Mod
    omega
  have hval : ∀ b v, (b, v) ∈ countBytes buf → 0 < v ∧ v = buf.count b := by
    intro b v h
    obtain ⟨hb, hv⟩ := (mem_countBytes buf b v).mp h
    rw [hmod] at hv
    exact ⟨by rw [hv]; exact List.count_pos_iff.mpr hb, hv⟩
  refine ⟨countBytes_nodup buf, ?_, hval, ?_⟩
  · intro b
    constructor
    · rintro ⟨v, hv⟩
      exact ((mem_countBytes buf b v).mp hv).1
    · intro hb
      exact ⟨_, (mem_countBytes buf b _).mpr ⟨hb, rfl⟩⟩
  · intro hne
    obtain ⟨t, e, _, _, _, hlv⟩ := makeTree_of_leaves (nodesOfCounts r (countBytes buf))
      (nodesOfCounts_isLeaf r _) (nodesOfCounts_ne_nil r _ (countBytes_ne_nil buf hne))
    have hp : t.leaves.Perm (nodesOfCounts r (countBytes buf)) := Multiset.coe_eq_coe.mp hlv
    refine ⟨t, e, ?_⟩
    intro x hx
    have hx2 := hp.mem_iff.mp hx
    obtain ⟨k, v, hkv, rfl⟩ := (mem_nodesOfCounts r _ x).mp hx2
    refine ⟨nodesOfCounts_isLeaf r _ _ hx2, ((mem_countBytes buf k v).mp hkv).1, ?_⟩
    exact (hval k v hkv).2

theorem C6_frequency_counting_witness :
    ([97, 98, 97] : List Byte).length < 2 ^ 32 ∧
    (((countBytes [97, 98, 97]).map Prod.fst).Nodup ∧
    (∀ b, (∃ v, (b, v) ∈ countBytes [97, 98, 97]) ↔ b ∈ ([97, 98, 97] : List Byte)) ∧
    (∀ b v, (b, v) ∈ countBytes [97, 98, 97] →
      0 < v ∧ v = ([97, 98, 97] : List Byte).count b) ∧
    (([97, 98, 97] : List Byte) ≠ [] →
      ∃ t, MakeTreeFromText MapRange.inOrder (.ok [97, 98, 97]) =
        some (some { root := t }, none) ∧
      ∀ x ∈ t.leaves, x.isLeaf = true ∧ x.char ∈ ([97, 98, 97] : List Byte) ∧
        x.count = ([97, 98, 97] : List Byte).count x.char)) :=
  ⟨by decide, C6_frequency_counting MapRange.inOrder [97, 98, 97] (by decide)⟩

/-! ## Counts without wrap-around -/

theorem Builds_exact {F : Multiset huffNode} {t : huffNode} (hb : Builds F t) :
    (∀ x ∈ F, x.StrictSum ∧ x.count = x.weight) →
    (F.map huffNode.weight).sum < uint32Mod →
    t.StrictSum ∧ t.count = t.weight ∧ t.weight = (F.map huffNode.weight).sum := by
  induction hb with
  | done t =>
    intro h _
    exact ⟨(h t (by simp)).1, (h t (by simp)).2, by simp⟩
  | step a b R t _ _ _ ih =>
    intro h hsum
    obtain ⟨sa, ca⟩ := h a (by simp)
    obtain ⟨sb, cb⟩ := h b (by simp)
    have hna := StrictSum_ne_nil a sa
    simp only [Multiset.map_cons, Multiset.sum_cons] at hsum
    have hlt : a.count + b.count < uint32Mod := by omega
    have hcnt : (mergeNodes a b).count = a.count + b.count := by
      show (a.count + b.count) % uint32Mod = _
      exact Nat.mod_eq_of_lt hlt
    have hw := weight_mergeNodes a b hna
    have hsum2 : (Multiset.map huffNode.weight (mergeNodes a b ::ₘ R)).sum =
        (Multiset.map huffNode.weight (a ::ₘ b ::ₘ R)).sum := by
      simp only [Multiset.map_cons, Multiset.sum_cons, hw]
      omega
    have := ih ?_ ?_
    · rw [hsum2] at this
      exact this
    · intro x hx
      rcases Multiset.mem_cons.mp hx with e | e
      · subst e
        refine ⟨?_, by rw [hcnt, hw, ca, cb]⟩
        have hk : (a.count + b.count) % uint32Mod = a.count + b.count :=
          Nat.mod_eq_of_lt hlt
        unfold mergeNodes
        rw [hk]
        simp only [huffNode.StrictSum]
        exact Or.inr ⟨sa, sb, trivial⟩
      · exact h x (by simp [e])
    · rw [hsum2]
      simpa using hsum

theorem weight_sum_of_leaves (nodes : List huffNode) (hl : ∀ x ∈ nodes, x.isLeaf = true) :
    ((↑nodes : Multiset huffNode).map huffNode.weight).sum =
      (nodes.map huffNode.count).sum := by
  induction nodes with
  | nil => simp
  | cons x xs ih =>
    have hx := (leaf_facts x (hl x (by simp))).2.2.2.2.1
    have := ih (fun y hy => hl y (by simp [hy]))
    simp only [Multiset.map_coe, Multiset.sum_coe, List.map_cons, List.sum_cons] at this ⊢
    rw [this, hx]

/-- What `makeTreeFromNodeSlice` returns on leaf nodes whose counts total less
than `2 ^ 32`: every internal count is the exact sum of the two child counts
and every count is the sum of the leaf counts below it. -/
theorem makeTree_exact (nodes : List huffNode) (hl : ∀ x ∈ nodes, x.isLeaf = true)
    (hne : nodes ≠ []) (hsum : (nodes.map huffNode.count).sum < uint32Mod) :
    ∃ t, makeTreeFromNodeSlice nodes = some (some { root := t }, none) ∧
      t.StrictSum ∧ t.count = t.weight ∧ t.weight = (nodes.map huffNode.count).sum := by
  obtain ⟨t, e, hb, _⟩ := makeTree_of_leaves nodes hl hne
  have hw := weight_sum_of_leaves nodes hl
  obtain ⟨h1, h2, h3⟩ := Builds_exact hb
    (fun x hx => by
      have := leaf_facts x (hl x (Multiset.mem_coe.mp hx))
      exact ⟨this.2.2.1, this.2.2.2.2.1.symm⟩)
    (by rw [hw]; exact hsum)
  exact ⟨t, e, h1, h2, by rw [h3, hw]⟩

/-- C7, as the code has it. In every tree `makeTreeFromNodeSlice` returns
from leaf nodes, every node is a leaf or has two non-nil children and as
count the sum of their counts reduced modulo `2 ^ 32`; when the counts of the
leaf nodes total less than `2 ^ 32` the count is the exact sum. -/
theorem C7_strict_binary_tree (nodes : List huffNode)
    (hl : ∀ x ∈ nodes, x.isLeaf = true) (hne : nodes ≠ []) :
    ∃ t, makeTreeFromNodeSlice nodes = some (some { root := t }, none) ∧
      t.StrictMod ∧ ((nodes.map huffNode.count).sum < 2 ^ 32 → t.StrictSum) := by
  obtain ⟨t, e, _, _, hsm, _⟩ := makeTree_of_leaves nodes hl hne
  refine ⟨t, e, hsm, ?_⟩
  intro hsum
  obtain ⟨t2, e2, h1, _⟩ := makeTree_exact nodes hl hne hsum
  rw [e] at e2
  simp only [Option.some.injEq, Prod.mk.injEq, and_true, HuffTree.mk.injEq] at e2
  rw [e2]
  exact h1

theorem C7_strict_binary_tree_witness :
    (∀ x ∈ [huffNode.leaf 97 2, huffNode.leaf 98 1], x.isLeaf = true) ∧
    [huffNode.leaf 97 2, huffNode.leaf 98 1] ≠ [] ∧
    ∃ t, makeTreeFromNodeSlice [huffNode.leaf 97 2, huffNode.leaf 98 1] =
        some (some { root := t }, none) ∧
      t.StrictMod ∧
      ((([huffNode.leaf 97 2, huffNode.leaf 98 1] : List huffNode).map huffNode.count).sum
        < 2 ^ 32 → t.StrictSum) :=
  ⟨by decide, by decide,
   C7_strict_binary_tree [huffNode.leaf 97 2, huffNode.leaf 98 1] (by decide) (by decide)⟩

/-- C7 as stated fails: on the leaves `a` with count `2 ^ 32 - 1` and `b`
with count `1` the root has count `0`, not the sum `2 ^ 32` of its children's
counts. -/
theorem C7_exact_sum_counterexample :
    makeTreeFromNodeSlice [huffNode.leaf 97 4294967295, huffNode.leaf 98 1] =
      some (some (HuffTree.mk (huffNode.mk 0 0 (huffNode.leaf 98 1)
        (huffNode.leaf 97 4294967295))), none) ∧
    ¬ (huffNode.mk 0 0 (huffNode.leaf 98 1) (huffNode.leaf 97 4294967295)).StrictSum := by
  constructor
  · decide
  · simp [huffNode.StrictSum, huffNode.leaf, huffNode.count]

/-! ## One repeated byte -/

theorem uint32Mod_eq : uint32Mod = 2 ^ 32 := by
  norm_num [uint32Mod]

theorem MakeTreeFromText_replicate (r : MapRange) (b : Byte) (n : Nat) (hn : 0 < n) :
    MakeTreeFromText r (.ok (List.replicate n b)) =
      some (some { root := huffNode.leaf b (n % uint32Mod) }, none) := by
  rw [MakeTreeFromText_ok, countBytes_replicate n b hn]
  have : r.enum [(b, n % uint32Mod)] = [(b, n % uint32Mod)] :=
    List.perm_singleton.mp (r.perm _)
  simp only [nodesOfCounts, this, List.map_cons, List.map_nil]
  exact makeTree_singleton _

/-- C10, as the code has it. For an input that repeats one byte value `b`
`n > 0` times, `MakeTreeFromText` succeeds and the root of the tree is a leaf
with symbol `b` and count `n` reduced modulo `2 ^ 32`, which is `n` for
`n < 2 ^ 32`. -/
theorem C10_degenerate_alphabet (r : MapRange) (b : Byte) (n : Nat) (hn : 0 < n) :
    MakeTreeFromText r (.ok (List.replicate n b)) =
      some (some { root := huffNode.leaf b (n % 2 ^ 32) }, none) ∧
    (n < 2 ^ 32 → MakeTreeFromText r (.ok (List.replicate n b)) =
      some (some { root := huffNode.leaf b n }, none)) := by
  have h := MakeTreeFromText_replicate r b n hn
  rw [uint32Mod_eq] at h
  refine ⟨h, fun hlt => ?_⟩
  rw [h, Nat.mod_eq_of_lt hlt]

theorem C10_degenerate_alphabet_witness :
    0 < 4 ∧
    (MakeTreeFromText MapRange.inOrder (.ok (List.replicate 4 97)) =
      some (some { root := huffNode.leaf 97 (4 % 2 ^ 32) }, none) ∧
    (4 < 2 ^ 32 → MakeTreeFromText MapRange.inOrder (.ok (List.replicate 4 97)) =
      some (some { root := huffNode.leaf 97 4 }, none))) :=
  ⟨by decide, C10_degenerate_alphabet MapRange.inOrder 97 4 (by decide)⟩

/-- C10 as stated fails: on `2 ^ 32` copies of the byte `a` the root is a leaf
with count `0`, not `2 ^ 32`. -/
theorem C10_count_counterexample :
    MakeTreeFromText MapRange.inOrder (.ok (List.replicate 4294967296 97)) =
      some (some { root := huffNode.leaf 97 0 }, none) ∧
    (huffNode.leaf 97 0).count ≠ 4294967296 := by
  constructor
  · exact MakeTreeFromText_replicate MapRange.inOrder 97 4294967296 (by decide)
  · decide

/-! ## Encoding and decoding round trip -/

/-- C1, evaluated. On the one-byte input `a` the tree is built, and then
`EncodeText` returns the error `Undefined method`, as it does on every call;
`DecodeText` writes no byte whatever it is given, and on every non-empty bit
stream it returns no error. -/
theorem C1_round_trip_fails :
    MakeTreeFromText MapRange.inOrder (.ok [97]) =
      some (some { root := huffNode.leaf 97 1 }, none) ∧
    (∀ (t : HuffTree) (fromFile toFile : String),
      EncodeText t fromFile toFile = some "Undefined method") ∧
    (∀ (t : HuffTree) (reader : Except String (List Bool)) (created : Option String),
      (DecodeText t reader created).1 = []) ∧
    (∀ (t : HuffTree) (b : Bool) (bits : List Bool),
      DecodeText t (.ok (b :: bits)) none = ([], none)) := by
  refine ⟨by decide, fun _ _ _ => rfl, ?_, fun _ _ _ => rfl⟩
  intro t reader created
  cases reader with
  | error e => rfl
  | ok bits =>
    cases created with
    | some e => rfl
    | none => cases bits <;> rfl

/-! ## Optimality -/

theorem FullDepths.card_pos {D : Multiset ℕ} (h : FullDepths D) : 0 < Multiset.card D := by
  induction h with
  | leaf => simp
  | node A B _ _ ihA _ => simp only [Multiset.card_add, Multiset.card_map]; omega

theorem FullDepths.eq_singleton {D : Multiset ℕ} (h : FullDepths D)
    (h1 : Multiset.card D = 1) : D = {0} := by
  cases h with
  | leaf => rfl
  | node A B hA hB =>
    have := hA.card_pos
    have := hB.card_pos
    simp only [Multiset.card_add, Multiset.card_map] at h1
    omega

theorem FullDepths.combine (A B A1 : Multiset ℕ) (k : ℕ) (hB : FullDepths B)
    (hA : A = (k + 1) ::ₘ (k + 1) ::ₘ A1) (hF : FullDepths (k ::ₘ A1))
    (hbA : ∀ d ∈ A, d ≤ k + 1) (hbB : ∀ d ∈ B, d ≤ k + 1) :
    ∃ m D1, A.map Nat.succ + B.map Nat.succ = (m + 1) ::ₘ (m + 1) ::ₘ D1 ∧
      FullDepths (m ::ₘ D1) ∧ ∀ d ∈ A.map Nat.succ + B.map Nat.succ, d ≤ m + 1 := by
  refine ⟨k + 1, A1.map Nat.succ + B.map Nat.succ, ?_, ?_, ?_⟩
  · rw [hA]
    simp only [Multiset.map_cons, Multiset.cons_add]
  · have := FullDepths.node _ _ hF hB
    simpa only [Multiset.map_cons, Multiset.cons_add] using this
  · intro d hd
    rcases Multiset.mem_add.mp hd with h | h
    · obtain ⟨e, he, rfl⟩ := Multiset.mem_map.mp h
      have := hbA e he
      omega
    · obtain ⟨e, he, rfl⟩ := Multiset.mem_map.mp h
      have := hbB e he
      omega

theorem FullDepths.deepest {D : Multiset ℕ} (h : FullDepths D) :
    2 ≤ Multiset.card D →
    ∃ k D1, D = (k + 1) ::ₘ (k + 1) ::ₘ D1 ∧ FullDepths (k ::ₘ D1) ∧
      ∀ d ∈ D, d ≤ k + 1 := by
  induction h with
  | leaf => intro h2; simp at h2
  | node A B hA hB ihA ihB =>
    intro _
    have cA := hA.card_pos
    have cB := hB.card_pos
    by_cases hA1 : Multiset.card A = 1
    · have eA := hA.eq_singleton hA1
      by_cases hB1 : Multiset.card B = 1
      · have eB := hB.eq_singleton hB1
        subst eA eB
        refine ⟨0, 0, by simp, by simpa using FullDepths.leaf, ?_⟩
        intro d hd
        simp at hd
        omega
      · obtain ⟨k, B1, e, hF, hb⟩ := ihB (by omega)
        have := FullDepths.combine B A B1 k hA e hF hb
          (by intro d hd; rw [eA] at hd; simp at hd; omega)
        rwa [add_comm] at this
    · by_cases hB1 : Multiset.card B = 1
      · have eB := hB.eq_singleton hB1
        obtain ⟨k, A1, e, hF, hb⟩ := ihA (by omega)
        exact FullDepths.combine A B A1 k hB e hF hb
          (by intro d hd; rw [eB] at hd; simp at hd; omega)
      · obtain ⟨k, A1, e, hF, hb⟩ := ihA (by omega)
        obtain ⟨m, B1, e2, hF2, hb2⟩ := ihB (by omega)
        by_cases hkm : m ≤ k
        · exact FullDepths.combine A B A1 k hB e hF hb
            (by intro d hd; have := hb2 d hd; omega)
        · have := FullDepths.combine B A B1 m hA e2 hF2 hb2
            (by intro d hd; have := hb d hd; omega)
          rwa [add_comm] at this

theorem pairCost_cons (p : ℕ × ℕ) (A : Multiset (ℕ × ℕ)) :
    pairCost (p ::ₘ A) = p.1 * p.2 + pairCost A := by
  simp [pairCost]

/-- A least weight can be moved to a deepest place without raising the
cost. -/
theorem put_min_deep (A : Multiset (ℕ × ℕ)) (H a : ℕ) (W D : Multiset ℕ)
    (hd : A.map Prod.snd = H ::ₘ D) (hw : A.map Prod.fst = a ::ₘ W)
    (hmin : ∀ x ∈ W, a ≤ x) (hmax : ∀ d ∈ D, d ≤ H) :
    ∃ B : Multiset (ℕ × ℕ), B.map Prod.snd = D ∧ B.map Prod.fst = W ∧
      a * H + pairCost B ≤ pairCost A := by
  have hH : H ∈ A.map Prod.snd := by rw [hd]; simp
  obtain ⟨p, hp, hpH⟩ := Multiset.mem_map.mp hH
  obtain ⟨A0, rfl⟩ := Multiset.exists_cons_of_mem hp
  obtain ⟨c, e⟩ := p
  simp only at hpH
  subst hpH
  simp only [Multiset.map_cons] at hd hw
  have hd0 : A0.map Prod.snd = D := (Multiset.cons_inj_right _).mp hd
  rcases Multiset.cons_eq_cons.mp hw with ⟨hca, hW⟩ | ⟨hca, cs, hcs1, hcs2⟩
  · refine ⟨A0, hd0, hW, ?_⟩
    rw [pairCost_cons, hca]
  · have ha : a ∈ A0.map Prod.fst := by rw [hcs1]; simp
    obtain ⟨q, hq, hqa⟩ := Multiset.mem_map.mp ha
    obtain ⟨A1, rfl⟩ := Multiset.exists_cons_of_mem hq
    obtain ⟨a2, d2⟩ := q
    simp only at hqa
    subst hqa
    simp only [Multiset.map_cons] at hd0 hcs1
    have hA1 : A1.map Prod.fst = cs := (Multiset.cons_inj_right _).mp hcs1
    refine ⟨(c, d2) ::ₘ A1, ?_, ?_, ?_⟩
    · simpa using hd0
    · simp [hA1, hcs2]
    · have hac : a2 ≤ c := hmin c (by rw [hcs2]; simp)
      have hde : d2 ≤ e := hmax d2 (by rw [← hd0]; simp)
      simp only [pairCost_cons]
      obtain ⟨x, rfl⟩ := Nat.exists_eq_add_of_le hac
      obtain ⟨y, rfl⟩ := Nat.exists_eq_add_of_le hde
      nlinarith [Nat.zero_le (x * y)]

/-- The exchange step of the optimality proof: an assignment of depths to
weights among which `a` and `b` are two least ones yields an assignment for
the weights with `a` and `b` replaced by `a + b`, cheaper by at least
`a + b`. -/
theorem merge_two_min (A : Multiset (ℕ × ℕ)) (a b : ℕ) (R : Multiset ℕ)
    (hF : FullDepths (A.map Prod.snd)) (hw : A.map Prod.fst = a ::ₘ b ::ₘ R)
    (ha : ∀ x ∈ b ::ₘ R, a ≤ x) (hb : ∀ x ∈ R, b ≤ x) :
    ∃ B : Multiset (ℕ × ℕ), FullDepths (B.map Prod.snd) ∧
      B.map Prod.fst = (a + b) ::ₘ R ∧ pairCost B + a + b ≤ pairCost A := by
  have hcard : 2 ≤ Multiset.card (A.map Prod.snd) := by
    have := congrArg Multiset.card hw
    simp only [Multiset.card_map, Multiset.card_cons] at this ⊢
    omega
  obtain ⟨k, D1, hD, hF1, hbd⟩ := hF.deepest hcard
  obtain ⟨B1, hB1d, hB1w, hc1⟩ := put_min_deep A (k + 1) a (b ::ₘ R) ((k + 1) ::ₘ D1)
    hD hw ha (fun d hd => hbd d (by rw [hD]; exact Multiset.mem_cons_of_mem hd))
  obtain ⟨B2, hB2d, hB2w, hc2⟩ := put_min_deep B1 (k + 1) b R D1 hB1d hB1w hb
    (fun d hd => hbd d (by
      rw [hD]; exact Multiset.mem_cons_of_mem (Multiset.mem_cons_of_mem hd)))
  refine ⟨(a + b, k) ::ₘ B2, ?_, ?_, ?_⟩
  · simpa [hB2d] using hF1
  · simp [hB2w]
  · rw [pairCost_cons]
    simp only
    nlinarith

theorem assignment_fst (t : huffNode) :
    t.assignment.map Prod.fst = ↑(t.leaves.map huffNode.count) := by
  simp [huffNode.assignment, huffNode.leaves, List.map_map, Function.comp_def]

theorem assignment_cost (t : huffNode) : pairCost t.assignment = t.cost := by
  simp [huffNode.assignment, pairCost, huffNode.cost, List.map_map, Function.comp_def]

theorem Strict_fullDepths (u : huffNode) (h : u.Strict) :
    FullDepths (↑((u.leavesAt 0).map Prod.snd) : Multiset ℕ) := by
  induction u with
  | nil => simp [huffNode.Strict] at h
  | mk c k l r ihl ihr =>
    simp only [huffNode.Strict] at h
    rcases h with h | ⟨hl, hr⟩
    · simp only [huffNode.leavesAt, h, and_self, if_true, List.map_cons, List.map_nil]
      exact FullDepths.leaf
    · have hn : ¬ (l = .nil ∧ r = .nil) := fun e => Strict_ne_nil l hl e.1
      have := FullDepths.node _ _ (ihl hl) (ihr hr)
      simp only [huffNode.leavesAt, hn, if_false, List.map_append]
      rw [leavesAt_shift l (0 + 1), leavesAt_shift r (0 + 1)]
      simpa [List.map_map, Function.comp_def] using this

theorem assignment_full (u : huffNode) (h : u.Strict) :
    FullDepths (u.assignment.map Prod.snd) := by
  have := Strict_fullDepths u h
  simpa [huffNode.assignment, List.map_map, Function.comp_def] using this

theorem StrictSum_Strict (x : huffNode) (h : x.StrictSum) : x.Strict := by
  induction x with
  | nil => simp [huffNode.StrictSum] at h
  | mk c k l r ihl ihr =>
    simp only [huffNode.StrictSum] at h
    simp only [huffNode.Strict]
    rcases h with h | ⟨h1, h2, _⟩
    · exact Or.inl h
    · exact Or.inr ⟨ihl h1, ihr h2⟩

/-- The merge process ends in a tree that costs no more than any assignment
of depths to the counts of the remaining nodes, added to the cost already
inside those nodes. -/
theorem Builds_optimal {F : Multiset huffNode} {t : huffNode} (hb : Builds F t) :
    (∀ x ∈ F, x.StrictSum ∧ x.count = x.weight) →
    (F.map huffNode.weight).sum < uint32Mod →
    ∀ A : Multiset (ℕ × ℕ), FullDepths (A.map Prod.snd) →
      A.map Prod.fst = F.map huffNode.count →
      t.cost ≤ (F.map huffNode.cost).sum + pairCost A := by
  induction hb with
  | done t =>
    intro _ _ A hF hw
    simp
  | step a b R t hmin1 hmin2 _ ih =>
    intro h hsum A hF hw
    obtain ⟨sa, ca⟩ := h a (by simp)
    obtain ⟨sb, cb⟩ := h b (by simp)
    have hna := StrictSum_ne_nil a sa
    simp only [Multiset.map_cons, Multiset.sum_cons] at hsum hw
    have hlt : a.count + b.count < uint32Mod := by omega
    have hcnt : (mergeNodes a b).count = a.count + b.count := by
      show (a.count + b.count) % uint32Mod = _
      exact Nat.mod_eq_of_lt hlt
    have hwt := weight_mergeNodes a b hna
    have hcost := cost_mergeNodes a b hna
    obtain ⟨B, hBF, hBw, hBc⟩ := merge_two_min A a.count b.count (R.map huffNode.count)
      hF hw
      (by
        intro x hx
        rcases Multiset.mem_cons.mp hx with e | e
        · rw [e]; exact hmin1 b (by simp)
        · obtain ⟨y, hy, rfl⟩ := Multiset.mem_map.mp e
          exact hmin1 y (by simp [hy]))
      (by
        intro x hx
        obtain ⟨y, hy, rfl⟩ := Multiset.mem_map.mp hx
        exact hmin2 y hy)
    have := ih ?_ ?_ B hBF ?_
    · simp only [Multiset.map_cons, Multiset.sum_cons, hcost] at this ⊢
      omega
    · intro x hx
      rcases Multiset.mem_cons.mp hx with e | e
      · subst e
        refine ⟨?_, by rw [hcnt, hwt, ca, cb]⟩
        have hk : (a.count + b.count) % uint32Mod = a.count + b.count :=
          Nat.mod_eq_of_lt hlt
        unfold mergeNodes
        rw [hk]
        simp only [huffNode.StrictSum]
        exact Or.inr ⟨sa, sb, trivial⟩
      · exact h x (by simp [e])
    · simp only [Multiset.map_cons, Multiset.sum_cons, hwt]
      omega
    · simp only [Multiset.map_cons, hcnt]
      exact hBw

theorem cost_sum_of_leaves (nodes : List huffNode) (hl : ∀ x ∈ nodes, x.isLeaf = true) :
    ((↑nodes : Multiset huffNode).map huffNode.cost).sum = 0 := by
  induction nodes with
  | nil => simp
  | cons x xs ih =>
    have hx := (leaf_facts x (hl x (by simp))).2.2.2.2.2
    have := ih (fun y hy => hl y (by simp [hy]))
    simp only [Multiset.map_coe, Multiset.sum_coe, List.map_cons, List.sum_cons] at this ⊢
    rw [this, hx]

/-- The tree `makeTreeFromNodeSlice` builds from leaf nodes whose counts total
less than `2 ^ 32` costs no more than any assignment of the depths of a
strict binary tree to the counts of the nodes. -/
theorem makeTree_optimal (nodes : List huffNode) (hl : ∀ x ∈ nodes, x.isLeaf = true)
    (hne : nodes ≠ []) (hsum : (nodes.map huffNode.count).sum < uint32Mod) :
    ∃ t, makeTreeFromNodeSlice nodes = some (some { root := t }, none) ∧
      t.Strict ∧ (↑t.leaves : Multiset huffNode) = ↑nodes ∧
      ∀ A : Multiset (ℕ × ℕ), FullDepths (A.map Prod.snd) →
        A.map Prod.fst = ↑(nodes.map huffNode.count) → t.cost ≤ pairCost A := by
  obtain ⟨t, e, hb, _, hsm, hlv⟩ := makeTree_of_leaves nodes hl hne
  refine ⟨t, e, StrictMod_Strict t hsm, hlv, ?_⟩
  intro A hF hw
  have := Builds_optimal hb
    (fun x hx => by
      have := leaf_facts x (hl x (Multiset.mem_coe.mp hx))
      exact ⟨this.2.2.1, this.2.2.2.2.1.symm⟩)
    (by rw [weight_sum_of_leaves nodes hl]; exact hsum) A hF (by simpa using hw)
  rw [cost_sum_of_leaves nodes hl] at this
  omega

/-- C3. For a non-empty slice of leaf nodes whose counts total less than
`2 ^ 32` (no addition wraps around), `makeTreeFromNodeSlice` returns a strict
binary tree whose leaves are the nodes of the slice and whose weighted path
length is minimal among all strict binary trees with these leaves. -/
theorem C3_optimality (nodes : List huffNode) (hl : ∀ x ∈ nodes, x.isLeaf = true)
    (hne : nodes ≠ []) (hsum : (nodes.map huffNode.count).sum < 2 ^ 32) :
    ∃ t, makeTreeFromNodeSlice nodes = some (some { root := t }, none) ∧
      t.Strict ∧ (↑t.leaves : Multiset huffNode) = ↑nodes ∧
      ∀ u : huffNode, u.Strict → (↑u.leaves : Multiset huffNode) = ↑nodes →
        t.cost ≤ u.cost := by
  obtain ⟨t, e, hs, hlv, hopt⟩ := makeTree_optimal nodes hl hne hsum
  refine ⟨t, e, hs, hlv, ?_⟩
  intro u hu hul
  rw [← assignment_cost u]
  apply hopt _ (assignment_full u hu)
  rw [assignment_fst]
  have := congrArg (Multiset.map huffNode.count) hul
  simpa using this

theorem C3_optimality_witness :
    (∀ x ∈ [huffNode.leaf 97 4, huffNode.leaf 98 3, huffNode.leaf 99 2],
      x.isLeaf = true) ∧
    [huffNode.leaf 97 4, huffNode.leaf 98 3, huffNode.leaf 99 2] ≠ [] ∧
    (([huffNode.leaf 97 4, huffNode.leaf 98 3, huffNode.leaf 99 2] : List huffNode).map
      huffNode.count).sum < 2 ^ 32 ∧
    ∃ t, makeTreeFromNodeSlice [huffNode.leaf 97 4, huffNode.leaf 98 3, huffNode.leaf 99 2] =
        some (some { root := t }, none) ∧
      t.Strict ∧ (↑t.leaves : Multiset huffNode) =
        ↑[huffNode.leaf 97 4, huffNode.leaf 98 3, huffNode.leaf 99 2] ∧
      ∀ u : huffNode, u.Strict → (↑u.leaves : Multiset huffNode) =
        ↑[huffNode.leaf 97 4, huffNode.leaf 98 3, huffNode.leaf 99 2] → t.cost ≤ u.cost :=
  ⟨by decide, by decide, by decide,
   C3_optimality [huffNode.leaf 97 4, huffNode.leaf 98 3, huffNode.leaf 99 2]
     (by decide) (by decide) (by decide)⟩

/-! ## Monotone code lengths -/

theorem sum_incrCount_le (m : List (Byte × Nat)) (b : Byte) :
    ((incrCount m b).map Prod.snd).sum ≤ (m.map Prod.snd).sum + 1 := by
  induction m with
  | nil => simp [incrCount, uint32Mod]
  | cons p rest ih =>
    obtain ⟨k0, v0⟩ := p
    by_cases h0 : k0 = b
    · simp only [incrCount, h0, if_true, List.map_cons, List.sum_cons]
      have := Nat.mod_le (v0 + 1) uint32Mod
      omega
    · simp only [incrCount, h0, if_false, List.map_cons, List.sum_cons]
      omega

theorem sum_countBytes_le (buf : List Byte) :
    ((countBytes buf).map Prod.snd).sum ≤ buf.length := by
  induction buf using List.reverseRecOn with
  | nil => simp [countBytes]
  | append_singleton l a ih =>
    rw [countBytes_append]
    have := sum_incrCount_le (countBytes l) a
    simp only [List.length_append, List.length_singleton]
    omega

theorem nodesOfCounts_sum (r : MapRange) (m : List (Byte × Nat)) :
    ((nodesOfCounts r m).map huffNode.count).sum = (m.map Prod.snd).sum := by
  unfold nodesOfCounts
  rw [List.map_map]
  have : (huffNode.count ∘ fun kv : Byte × Nat => huffNode.leaf kv.1 kv.2) = Prod.snd := by
    funext kv; rfl
  rw [this]
  exact ((r.perm m).map Prod.snd).sum_eq

/-- In the tree built from leaf nodes whose counts total less than `2 ^ 32`,
a leaf with a larger count is never deeper than a leaf with a smaller one. -/
theorem makeTree_monotone (nodes : List huffNode) (hl : ∀ x ∈ nodes, x.isLeaf = true)
    (hne : nodes ≠ []) (hsum : (nodes.map huffNode.count).sum < uint32Mod) :
    ∃ t, makeTreeFromNodeSlice nodes = some (some { root := t }, none) ∧
      (↑t.leaves : Multiset huffNode) = ↑nodes ∧
      ∀ p ∈ t.leavesAt 0, ∀ q ∈ t.leavesAt 0, q.1.count < p.1.count → p.2 ≤ q.2 := by
  obtain ⟨t, e, hs, hlv, hopt⟩ := makeTree_optimal nodes hl hne hsum
  refine ⟨t, e, hlv, ?_⟩
  intro p hp q hq hcnt
  by_contra hdep
  have hpq : q ≠ p := by
    intro e; rw [e] at hcnt; omega
  obtain ⟨M1, hM1⟩ := Multiset.exists_cons_of_mem (Multiset.mem_coe.mpr hp)
  have hq1 : q ∈ M1 := by
    have : q ∈ p ::ₘ M1 := by rw [← hM1]; exact Multiset.mem_coe.mpr hq
    rcases Multiset.mem_cons.mp this with e | e
    · exact absurd e hpq
    · exact e
  obtain ⟨M2, hM2⟩ := Multiset.exists_cons_of_mem hq1
  have hA : t.assignment = (p.1.count, p.2) ::ₘ (q.1.count, q.2) ::ₘ
      M2.map (fun z => (z.1.count, z.2)) := by
    have : t.assignment = (↑(t.leavesAt 0) : Multiset (huffNode × ℕ)).map
        (fun z => (z.1.count, z.2)) := by
      simp [huffNode.assignment]
    rw [this, hM1, hM2]
    simp
  have hfull := assignment_full t hs
  have hfst := assignment_fst t
  rw [hA] at hfull hfst
  have hw : (↑(t.leaves.map huffNode.count) : Multiset ℕ) = ↑(nodes.map huffNode.count) := by
    have := congrArg (Multiset.map huffNode.count) hlv
    simpa using this
  have hle := hopt ((p.1.count, q.2) ::ₘ (q.1.count, p.2) ::ₘ
      M2.map (fun z => (z.1.count, z.2)))
    (by
      simp only [Multiset.map_cons] at hfull ⊢
      rw [Multiset.cons_swap]
      exact hfull)
    (by
      rw [← hw, ← hfst]
      simp only [Multiset.map_cons])
  have hc := assignment_cost t
  rw [hA] at hc
  simp only [pairCost_cons] at hle hc
  have h1 : q.2 < p.2 := by omega
  obtain ⟨x, hx⟩ := Nat.exists_eq_add_of_lt hcnt
  obtain ⟨y, hy⟩ := Nat.exists_eq_add_of_lt h1
  rw [hx, hy] at hle hc
  nlinarith [Nat.zero_le (x * y)]

/-- C4, as the code has it. For every non-empty input of fewer than `2 ^ 32`
bytes every byte value of the input has a leaf in the tree built by
`MakeTreeFromText`, and a symbol that occurs more often than another one has
a leaf that is not deeper. -/
theorem C4_monotone_code_lengths (r : MapRange) (buf : List Byte) (hne : buf ≠ [])
    (hlen : buf.length < 2 ^ 32) :
    ∃ t, MakeTreeFromText r (.ok buf) = some (some { root := t }, none) ∧
      (∀ b ∈ buf, ∃ p ∈ t.leavesAt 0, p.1.char = b) ∧
      ∀ p ∈ t.leavesAt 0, ∀ q ∈ t.leavesAt 0,
        buf.count q.1.char < buf.count p.1.char → p.2 ≤ q.2 := by
  have hsum : ((nodesOfCounts r (countBytes buf)).map huffNode.count).sum < uint32Mod := by
    rw [nodesOfCounts_sum]
    have := sum_countBytes_le buf
    unfold uint32Mod
    omega
  obtain ⟨t, e, hlv, hmono⟩ := makeTree_monotone (nodesOfCounts r (countBytes buf))
    (nodesOfCounts_isLeaf r _) (nodesOfCounts_ne_nil r _ (countBytes_ne_nil buf hne)) hsum
  have hp : t.leaves.Perm (nodesOfCounts r (countBytes buf)) := Multiset.coe_eq_coe.mp hlv
  have hcount : ∀ p ∈ t.leavesAt 0, p.1.count = buf.count p.1.char := by
    intro p hp1
    have hx : p.1 ∈ t.leaves := List.mem_map_of_mem Prod.fst hp1
    obtain ⟨k, v, hkv, hpe⟩ := (mem_nodesOfCounts r _ p.1).mp (hp.mem_iff.mp hx)
    rw [hpe]
    have hv := ((mem_countBytes buf k v).mp hkv).2
    have := List.count_le_length k buf
    rw [Nat.mod_eq_of_lt (by unfold uint32Mod; omega)] at hv
    exact hv
  refine ⟨t, e, ?_, ?_⟩
  · intro b hb
    have hmem : huffNode.leaf b (buf.count b % uint32Mod) ∈ t.leaves :=
      hp.mem_iff.mpr ((mem_nodesOfCounts r _ _).mpr
        ⟨b, _, (mem_countBytes buf b _).mpr ⟨hb, rfl⟩, rfl⟩)
    obtain ⟨p, hp1, hp2⟩ := List.mem_map.mp hmem
    exact ⟨p, hp1, by rw [hp2]; rfl⟩
  · intro p hp1 q hq1 hc
    rw [← hcount p hp1, ← hcount q hq1] at hc
    exact hmono p hp1 q hq1 hc

theorem C4_monotone_code_lengths_witness :
    ([97, 97, 97, 97, 98, 98, 98, 99, 99] : List Byte) ≠ [] ∧
    ([97, 97, 97, 97, 98, 98, 98, 99, 99] : List Byte).length < 2 ^ 32 ∧
    ∃ t, MakeTreeFromText MapRange.inOrder (.ok [97, 97, 97, 97, 98, 98, 98, 99, 99]) =
        some (some { root := t }, none) ∧
      (∀ b ∈ ([97, 97, 97, 97, 98, 98, 98, 99, 99] : List Byte),
        ∃ p ∈ t.leavesAt 0, p.1.char = b) ∧
      ∀ p ∈ t.leavesAt 0, ∀ q ∈ t.leavesAt 0,
        ([97, 97, 97, 97, 98, 98, 98, 99, 99] : List Byte).count q.1.char <
          ([97, 97, 97, 97, 98, 98, 98, 99, 99] : List Byte).count p.1.char → p.2 ≤ q.2 :=
  ⟨by decide, by decide,
   C4_monotone_code_lengths MapRange.inOrder [97, 97, 97, 97, 98, 98, 98, 99, 99]
     (by decide) (by decide)⟩

theorem countBytes_append_list (l1 l2 : List Byte) :
    countBytes (l1 ++ l2) = l2.foldl incrCount (countBytes l1) := by
  simp [countBytes, List.foldl_append]

/-- The tree built from `n` bytes `x` followed by `y z z` when the count of
`x` wraps around to `0`, and the numbers of occurrences of `z` and `x`. -/
theorem wrapped_input (n : Nat) (hn : 0 < n) (hmod : n % uint32Mod = 0) :
    MakeTreeFromText MapRange.inOrder (.ok (List.replicate n 120 ++ [121, 122, 122])) =
      some (some (HuffTree.mk (huffNode.mk 0 3
        (huffNode.mk 0 1 (huffNode.leaf 120 0) (huffNode.leaf 121 1))
        (huffNode.leaf 122 2))), none) ∧
    (List.replicate n 120 ++ [121, 122, 122] : List Byte).count 122 = 2 ∧
    (List.replicate n 120 ++ [121, 122, 122] : List Byte).count 120 = n := by
  refine ⟨?_, ?_, ?_⟩
  · rw [MakeTreeFromText_ok, countBytes_append_list, countBytes_replicate n 120 hn, hmod]
    decide
  · simp [List.count_append, List.count_replicate]
  · simp [List.count_append, List.count_replicate]

/-- C4 as stated fails: in the input of `2 ^ 32` bytes `x` followed by
`y z z` the count of `x` wraps to `0`; `x` occurs more often than `z` and yet
its leaf is at depth 2, below the leaf of `z` at depth 1. -/
theorem C4_overflow_counterexample :
    MakeTreeFromText MapRange.inOrder
        (.ok (List.replicate 4294967296 120 ++ [121, 122, 122])) =
      some (some (HuffTree.mk (huffNode.mk 0 3
        (huffNode.mk 0 1 (huffNode.leaf 120 0) (huffNode.leaf 121 1))
        (huffNode.leaf 122 2))), none) ∧
    (huffNode.mk 0 3 (huffNode.mk 0 1 (huffNode.leaf 120 0) (huffNode.leaf 121 1))
        (huffNode.leaf 122 2)).leavesAt 0 =
      [(huffNode.leaf 120 0, 2), (huffNode.leaf 121 1, 2), (huffNode.leaf 122 2, 1)] ∧
    (List.replicate 4294967296 120 ++ [121, 122, 122] : List Byte).count 122 <
      (List.replicate 4294967296 120 ++ [121, 122, 122] : List Byte).count 120 := by
  obtain ⟨h1, h2, h3⟩ := wrapped_input 4294967296 (by decide) (by decide)
  exact ⟨h1, by decide, lt_of_eq_of_lt h2 (lt_of_lt_of_eq (by decide) h3.symm)⟩

/-! ## Tie-break and order of insertion -/

theorem Reachable_WF (h : nodeHeap) (hr : h.Reachable) : h.WF := by
  induction hr with
  | init => rw [heap_Init_empty]; exact WF_empty
  | push h x _ ih => exact (heap_Push_spec h x ih).1
  | pop h g x _ hp ih =>
    by_cases h0 : 0 < h.items.length
    · obtain ⟨x2, s, g2, e, w, _⟩ := heap_Pop_spec h ih h0
      rw [e] at hp
      simp only [Option.some.injEq, Prod.mk.injEq] at hp
      rw [← hp.2]
      exact w
    · have : h.Len = 0 := by unfold nodeHeap.Len; omega
      simp [heap.Pop, this] at hp

/-- C9. In every heap `makeTreeFromNodeSlice` can hold, the sequence numbers
record the order of insertion: a pushed node is stamped with a number above
the numbers of all nodes already in the heap; and a pop returns the node that
is least by count and, among equal counts, by sequence number, so it was
pushed before every node of equal count that stays in the heap. A freshly
merged node therefore comes after every node of equal count that was in the
heap when it was pushed. -/
theorem C9_tie_break (h : nodeHeap) (hr : h.Reachable) :
    (∀ it ∈ h.items, it.2 < h.next) ∧
    (∀ x : huffNode, (heap.Push h x).Reachable ∧
      (heap.Push h x).items.Perm ((x, h.next) :: h.items) ∧
      (heap.Push h x).next = h.next + 1) ∧
    (0 < h.Len → ∃ x s g, heap.Pop h = some (x, g) ∧ g.Reachable ∧ g.next = h.next ∧
      h.items.Perm ((x, s) :: g.items) ∧
      ∀ it ∈ g.items, x.count < it.1.count ∨ (x.count = it.1.count ∧ s < it.2)) := by
  have hw := Reachable_WF h hr
  refine ⟨hw.2.1, ?_, ?_⟩
  · intro x
    obtain ⟨_, p, n⟩ := heap_Push_spec h x hw
    exact ⟨nodeHeap.Reachable.push h x hr, p, n⟩
  · intro h0
    obtain ⟨x, s, g, e, _, p, n, _, m⟩ := heap_Pop_spec h hw h0
    exact ⟨x, s, g, e, nodeHeap.Reachable.pop h g x hr e, n, p, m⟩

theorem C9_tie_break_witness :
    (heap.Push (heap.Push (heap.Init { items := [], next := 0 }) (huffNode.leaf 97 1))
      (huffNode.leaf 98 1)).Reachable ∧
    ∃ x s g, heap.Pop (heap.Push (heap.Push (heap.Init { items := [], next := 0 })
        (huffNode.leaf 97 1)) (huffNode.leaf 98 1)) = some (x, g) ∧
      g.Reachable ∧
      ∀ it ∈ g.items, x.count < it.1.count ∨ (x.count = it.1.count ∧ s < it.2) := by
  have hr : (heap.Push (heap.Push (heap.Init { items := [], next := 0 })
      (huffNode.leaf 97 1)) (huffNode.leaf 98 1)).Reachable :=
    nodeHeap.Reachable.push _ _ (nodeHeap.Reachable.push _ _ nodeHeap.Reachable.init)
  obtain ⟨x, s, g, e, r, _, _, m⟩ := (C9_tie_break _ hr).2.2 (by decide)
  exact ⟨hr, x, s, g, e, r, m⟩

/-! ## Order of the node slice -/

/-- C8 as stated fails: the two orders of the leaves `a` and `b`, both of
count 1, give different trees. -/
theorem C8_order_counterexample :
    [huffNode.leaf 98 1, huffNode.leaf 97 1].Perm [huffNode.leaf 97 1, huffNode.leaf 98 1] ∧
    makeTreeFromNodeSlice [huffNode.leaf 97 1, huffNode.leaf 98 1] =
      some (some (HuffTree.mk (huffNode.mk 0 2 (huffNode.leaf 97 1) (huffNode.leaf 98 1))),
        none) ∧
    makeTreeFromNodeSlice [huffNode.leaf 98 1, huffNode.leaf 97 1] =
      some (some (HuffTree.mk (huffNode.mk 0 2 (huffNode.leaf 98 1) (huffNode.leaf 97 1))),
        none) ∧
    MakeTreeFromText MapRange.inOrder (.ok [97, 98]) ≠
      MakeTreeFromText MapRange.reversed (.ok [97, 98]) := by
  refine ⟨List.Perm.swap _ _ _, by decide, by decide, by decide⟩

/-! ## The input `aaaabbbcc` -/

theorem perm_three (a b c : huffNode) (l : List huffNode) (h : l.Perm [a, b, c]) :
    l = [a, b, c] ∨ l = [b, a, c] ∨ l = [c, b, a] ∨ l = [b, c, a] ∨ l = [c, a, b] ∨
      l = [a, c, b] := by
  have hm := List.mem_permutations'.mpr h
  simp only [List.permutations', List.permutations'Aux, List.foldr_cons, List.foldr_nil,
    List.flatMap_cons, List.flatMap_nil, List.map_cons, List.map_nil, List.append_nil,
    List.cons_append, List.nil_append, List.mem_cons, List.mem_singleton,
    List.not_mem_nil, or_false] at hm
  tauto

/-- C11. For the input `aaaabbbcc` (`a`: 4, `b`: 3, `c`: 2) the three leaves,
pushed in any order, give one and the same tree: the leaf of `a` is the left
child of the root, at depth 1, and the leaves of `c` and `b` are the children
of the right child, at depth 2. -/
theorem C11_concrete_scenario :
    (∀ nodes : List huffNode,
      nodes.Perm [huffNode.leaf 97 4, huffNode.leaf 98 3, huffNode.leaf 99 2] →
      makeTreeFromNodeSlice nodes = some (some (HuffTree.mk (huffNode.mk 0 9
        (huffNode.leaf 97 4) (huffNode.mk 0 5 (huffNode.leaf 99 2) (huffNode.leaf 98 3)))),
        none)) ∧
    (∀ r : MapRange, MakeTreeFromText r (.ok [97, 97, 97, 97, 98, 98, 98, 99, 99]) =
      some (some (HuffTree.mk (huffNode.mk 0 9
        (huffNode.leaf 97 4) (huffNode.mk 0 5 (huffNode.leaf 99 2) (huffNode.leaf 98 3)))),
        none)) ∧
    (huffNode.mk 0 9 (huffNode.leaf 97 4)
      (huffNode.mk 0 5 (huffNode.leaf 99 2) (huffNode.leaf 98 3))).leavesAt 0 =
      [(huffNode.leaf 97 4, 1), (huffNode.leaf 99 2, 2), (huffNode.leaf 98 3, 2)] := by
  have key : ∀ nodes : List huffNode,
      nodes.Perm [huffNode.leaf 97 4, huffNode.leaf 98 3, huffNode.leaf 99 2] →
      makeTreeFromNodeSlice nodes = some (some (HuffTree.mk (huffNode.mk 0 9
        (huffNode.leaf 97 4) (huffNode.mk 0 5 (huffNode.leaf 99 2) (huffNode.leaf 98 3)))),
        none) := by
    intro nodes hp
    rcases perm_three _ _ _ nodes hp with e | e | e | e | e | e <;> subst e <;> decide
  refine ⟨key, ?_, by decide⟩
  intro r
  rw [MakeTreeFromText_ok]
  apply key
  have hc : countBytes [97, 97, 97, 97, 98, 98, 98, 99, 99] = [(97, 4), (98, 3), (99, 2)] := by
    decide
  rw [hc]
  exact (r.perm _).map (fun kv => huffNode.leaf kv.1 kv.2)

/-! ## Prefix-free codes -/

theorem codes_leavesAt (t : huffNode) : ∀ d,
    t.codes.map (fun e => (e.1, e.2.length + d)) = t.leavesAt d := by
  induction t with
  | nil => intro d; simp [huffNode.codes, huffNode.leavesAt]
  | mk c k l r ihl ihr =>
    intro d
    by_cases h : l = .nil ∧ r = .nil
    · simp [huffNode.codes, huffNode.leavesAt, h]
    · simp only [huffNode.codes, huffNode.leavesAt, h, if_false, List.map_append,
        List.map_map]
      rw [← ihl (d + 1), ← ihr (d + 1)]
      congr 1 <;> (apply List.map_congr_left; intro e _; simp; omega)

theorem codes_fst (t : huffNode) : t.codes.map Prod.fst = t.leaves := by
  unfold huffNode.leaves
  rw [← codes_leavesAt t 0, List.map_map]
  rfl

theorem codes_prefix_eq (t : huffNode) :
    ∀ e1 ∈ t.codes, ∀ e2 ∈ t.codes, e1.2 <+: e2.2 → e1 = e2 := by
  induction t with
  | nil => intro e1 h1; simp [huffNode.codes] at h1
  | mk c k l r ihl ihr =>
    intro e1 h1 e2 h2 hp
    by_cases h : l = .nil ∧ r = .nil
    · simp only [huffNode.codes, h, and_self, if_true, List.mem_singleton] at h1 h2
      rw [h1, h2]
    · simp only [huffNode.codes, h, if_false, List.mem_append, List.mem_map] at h1 h2
      rcases h1 with ⟨a, ha, rfl⟩ | ⟨a, ha, rfl⟩ <;>
        rcases h2 with ⟨b, hb, rfl⟩ | ⟨b, hb, rfl⟩
      · simp only [List.cons_prefix_cons, true_and] at hp
        rw [ihl a ha b hb hp]
      · simp [List.cons_prefix_cons] at hp
      · simp [List.cons_prefix_cons] at hp
      · simp only [List.cons_prefix_cons, true_and] at hp
        rw [ihr a ha b hb hp]

theorem codes_ne_nil (t : huffNode) (h : t.isLeaf = false) :
    ∀ e ∈ t.codes, e.2 ≠ [] := by
  cases t with
  | nil => intro e he; simp [huffNode.codes] at he
  | mk c k l r =>
    have hn : ¬ (l = .nil ∧ r = .nil) := by
      rintro ⟨rfl, rfl⟩
      simp [huffNode.isLeaf] at h
    intro e he
    simp only [huffNode.codes, hn, if_false, List.mem_append, List.mem_map] at he
    rcases he with ⟨a, _, rfl⟩ | ⟨a, _, rfl⟩ <;> simp

/-- The tree `MakeTreeFromText` builds from a non-empty input: its leaves are
the nodes made from the map, its leaf symbols are pairwise distinct and are
the byte values of the input. -/
theorem MakeTreeFromText_leaves (r : MapRange) (buf : List Byte) (hne : buf ≠ []) :
    ∃ t, MakeTreeFromText r (.ok buf) = some (some { root := t }, none) ∧
      t.StrictMod ∧ t.leaves.Perm (nodesOfCounts r (countBytes buf)) ∧
      (t.leaves.map huffNode.char).Nodup ∧
      (∀ b, b ∈ t.leaves.map huffNode.char ↔ b ∈ buf) := by
  obtain ⟨t, e, _, _, hsm, hlv⟩ := makeTree_of_leaves (nodesOfCounts r (countBytes buf))
    (nodesOfCounts_isLeaf r _) (nodesOfCounts_ne_nil r _ (countBytes_ne_nil buf hne))
  have hp : t.leaves.Perm (nodesOfCounts r (countBytes buf)) := Multiset.coe_eq_coe.mp hlv
  have hc : (t.leaves.map huffNode.char).Perm ((countBytes buf).map Prod.fst) :=
    (hp.map huffNode.char).trans (nodesOfCounts_chars r _)
  refine ⟨t, e, hsm, hp, hc.nodup_iff.mpr (countBytes_nodup buf), ?_⟩
  intro b
  rw [hc.mem_iff, List.mem_map]
  constructor
  · rintro ⟨kv, hkv, rfl⟩
    exact ((mem_countBytes buf kv.1 kv.2).mp hkv).1
  · intro hb
    exact ⟨(b, _), (mem_countBytes buf b _).mpr ⟨hb, rfl⟩, rfl⟩

/-- C14. For every input with at least two distinct byte values, the code
table of the tree built by `MakeTreeFromText` (the root-to-leaf paths, a left
edge the bit 0 and a right edge the bit 1) has exactly one code for every
byte value of the input, each as long as the leaf is deep; every code is
non-empty and no symbol's code is a prefix of the code of a different
symbol. -/
theorem C14_prefix_free (r : MapRange) (buf : List Byte)
    (h2 : ∃ x ∈ buf, ∃ y ∈ buf, x ≠ y) :
    ∃ t, MakeTreeFromText r (.ok buf) = some (some { root := t }, none) ∧
      (t.codes.map (fun e => e.1.char)).Nodup ∧
      (∀ b, b ∈ t.codes.map (fun e => e.1.char) ↔ b ∈ buf) ∧
      t.codes.map (fun e => (e.1, e.2.length)) = t.leavesAt 0 ∧
      (∀ e ∈ t.codes, e.2 ≠ []) ∧
      (∀ e1 ∈ t.codes, ∀ e2 ∈ t.codes, e1.1.char ≠ e2.1.char → ¬ e1.2 <+: e2.2) := by
  obtain ⟨x, hx, y, hy, hxy⟩ := h2
  obtain ⟨t, e, _, _, hnd, hmem⟩ := MakeTreeFromText_leaves r buf (List.ne_nil_of_mem hx)
  have hchars : t.codes.map (fun e => e.1.char) = t.leaves.map huffNode.char := by
    rw [← codes_fst, List.map_map]
    rfl
  refine ⟨t, e, by rw [hchars]; exact hnd, by rw [hchars]; exact hmem, ?_, ?_, ?_⟩
  · simpa using codes_leavesAt t 0
  · apply codes_ne_nil
    cases hl : t.isLeaf with
    | false => rfl
    | true =>
      exfalso
      obtain ⟨c, k, rfl⟩ := (isLeaf_iff t).mp hl
      have h1 := (hmem x).mpr hx
      have h2 := (hmem y).mpr hy
      rw [leaves_leaf] at h1 h2
      simp only [List.map_cons, List.map_nil, List.mem_singleton] at h1 h2
      exact hxy (h1.trans h2.symm)
  · intro e1 h1 e2 h2 hne hp
    exact hne (by rw [codes_prefix_eq t e1 h1 e2 h2 hp])

theorem C14_prefix_free_witness :
    (∃ x ∈ ([97, 98, 97] : List Byte), ∃ y ∈ ([97, 98, 97] : List Byte), x ≠ y) ∧
    ∃ t, MakeTreeFromText MapRange.inOrder (.ok [97, 98, 97]) =
        some (some { root := t }, none) ∧
      (t.codes.map (fun e => e.1.char)).Nodup ∧
      (∀ b, b ∈ t.codes.map (fun e => e.1.char) ↔ b ∈ ([97, 98, 97] : List Byte)) ∧
      t.codes.map (fun e => (e.1, e.2.length)) = t.leavesAt 0 ∧
      (∀ e ∈ t.codes, e.2 ≠ []) ∧
      (∀ e1 ∈ t.codes, ∀ e2 ∈ t.codes, e1.1.char ≠ e2.1.char → ¬ e1.2 <+: e2.2) :=
  ⟨⟨97, by decide, 98, by decide, by decide⟩,
   C14_prefix_free MapRange.inOrder [97, 98, 97] ⟨97, by decide, 98, by decide, by decide⟩⟩

/-! ## Merge steps and termination -/

/-- One iteration of the merge loop on a heap with more than one node: the
two pops succeed, the first node has a count not above the second, both have
counts not above any node left, and the loop goes on with the heap into which
their merge is pushed, which is one node shorter. -/
theorem merge_step (h : nodeHeap) (hw : h.WF) (h1 : 1 < h.items.length) :
    ∃ a b g1 g2, heap.Pop h = some (a, g1) ∧ heap.Pop g1 = some (b, g2) ∧ g2.WF ∧
      h.nodes = a ::ₘ b ::ₘ g2.nodes ∧ a.count ≤ b.count ∧
      (∀ x ∈ g2.nodes, a.count ≤ x.count ∧ b.count ≤ x.count) ∧
      g1.items.length + 1 = h.items.length ∧ g2.items.length + 2 = h.items.length ∧
      (∀ m : huffNode, (heap.Push g2 m).WF ∧
        (heap.Push g2 m).items.length + 1 = h.items.length) ∧
      (∀ fuel, mergeLoop (fuel + 1) h = mergeLoop fuel (heap.Push g2
        (huffNode.mk 0 ((a.count + b.count) % uint32Mod) a b))) := by
  obtain ⟨a, s1, g1, e1, w1, p1, _, _, m1⟩ := heap_Pop_spec h hw (by omega)
  have l1 : g1.items.length + 1 = h.items.length := by
    have := p1.length_eq
    simp at this
    omega
  obtain ⟨b, s2, g2, e2, w2, p2, _, _, m2⟩ := heap_Pop_spec g1 w1 (by omega)
  have l2 : g2.items.length + 1 = g1.items.length := by
    have := p2.length_eq
    simp at this
    omega
  have hg1 : g1.nodes = b ::ₘ g2.nodes := nodes_of_perm g1 b s2 _ p2
  have hb : a.count ≤ b.count := by
    have := m1 (b, s2) (p2.mem_iff.mpr (by simp))
    simp only at this
    omega
  refine ⟨a, b, g1, g2, e1, e2, w2, ?_, hb, ?_, l1, by omega, ?_, ?_⟩
  · have := nodes_of_perm h a s1 _ p1
    rw [this]
    exact congrArg _ hg1
  · intro x hx
    obtain ⟨it, hit, rfl⟩ := List.mem_map.mp (Multiset.mem_coe.mp hx)
    have h3 := m2 it hit
    constructor <;> omega
  · intro m
    obtain ⟨w3, p3, _⟩ := heap_Push_spec g2 m w2
    refine ⟨w3, ?_⟩
    have := p3.length_eq
    simp at this
    omega
  · intro fuel
    rw [mergeLoop, if_pos (by unfold nodeHeap.Len; omega)]
    simp only [e1, e2]

theorem Builds_ordered {F : Multiset huffNode} {t : huffNode} (hb : Builds F t) :
    (∀ x ∈ F, x.Ordered) → t.Ordered := by
  induction hb with
  | done t => intro h; exact h t (by simp)
  | step a b R t hmin _ _ ih =>
    intro h
    apply ih
    intro x hx
    rcases Multiset.mem_cons.mp hx with e | e
    · subst e
      unfold mergeNodes
      simp only [huffNode.Ordered]
      exact Or.inr ⟨hmin b (by simp), h a (by simp), h b (by simp)⟩
    · exact h x (by simp [e])

theorem leaf_ordered (x : huffNode) (h : x.isLeaf = true) : x.Ordered := by
  obtain ⟨c, k, rfl⟩ := (isLeaf_iff x).mp h
  simp [huffNode.leaf, huffNode.Ordered]

/-- C15. Each iteration of the merge loop pops the node of least count and
then the node of least count among the rest, so both counts are not above the
count of any node left in the heap, and pushes the node with the first as
left and the second as right child; hence in every tree returned from leaf
nodes the left child of an internal node has a count not above that of the
right child. -/
theorem C15_merge_step_order :
    (∀ h : nodeHeap, h.Reachable → 1 < h.Len →
      ∃ a b g1 g2, heap.Pop h = some (a, g1) ∧ heap.Pop g1 = some (b, g2) ∧
        h.nodes = a ::ₘ b ::ₘ g2.nodes ∧ a.count ≤ b.count ∧
        (∀ x ∈ g2.nodes, a.count ≤ x.count ∧ b.count ≤ x.count) ∧
        (heap.Push g2 (huffNode.mk 0 ((a.count + b.count) % uint32Mod) a b)).Reachable ∧
        (∀ fuel, mergeLoop (fuel + 1) h = mergeLoop fuel (heap.Push g2
          (huffNode.mk 0 ((a.count + b.count) % uint32Mod) a b)))) ∧
    (∀ nodes : List huffNode, (∀ x ∈ nodes, x.isLeaf = true) → nodes ≠ [] →
      ∃ t, makeTreeFromNodeSlice nodes = some (some { root := t }, none) ∧ t.Ordered) := by
  constructor
  · intro h hr hl
    obtain ⟨a, b, g1, g2, e1, e2, _, hn, hab, hmin, _, _, _, hloop⟩ :=
      merge_step h (Reachable_WF h hr) hl
    refine ⟨a, b, g1, g2, e1, e2, hn, hab, hmin, ?_, hloop⟩
    exact nodeHeap.Reachable.push _ _
      (nodeHeap.Reachable.pop _ _ _ (nodeHeap.Reachable.pop _ _ _ hr e1) e2)
  · intro nodes hl hne
    obtain ⟨t, e, hb⟩ := makeTreeFromNodeSlice_builds nodes hne
    exact ⟨t, e, Builds_ordered hb
      (fun x hx => leaf_ordered x (hl x (Multiset.mem_coe.mp hx)))⟩

theorem C15_merge_step_order_witness :
    (∃ a b g1 g2,
      heap.Pop (heap.Push (heap.Push (heap.Init { items := [], next := 0 })
        (huffNode.leaf 97 2)) (huffNode.leaf 98 1)) = some (a, g1) ∧
      heap.Pop g1 = some (b, g2) ∧ a.count ≤ b.count) ∧
    (∃ t, makeTreeFromNodeSlice [huffNode.leaf 97 2, huffNode.leaf 98 1] =
      some (some { root := t }, none) ∧ t.Ordered) := by
  obtain ⟨a, b, g1, g2, e1, e2, _, hab, _⟩ := C15_merge_step_order.1
    (heap.Push (heap.Push (heap.Init { items := [], next := 0 })
      (huffNode.leaf 97 2)) (huffNode.leaf 98 1))
    (nodeHeap.Reachable.push _ _ (nodeHeap.Reachable.push _ _ nodeHeap.Reachable.init))
    (by decide)
  exact ⟨⟨a, b, g1, g2, e1, e2, hab⟩,
    C15_merge_step_order.2 [huffNode.leaf 97 2, huffNode.leaf 98 1] (by decide) (by decide)⟩

theorem mergeLoop_more_fuel (fuel : Nat) : ∀ (nh g : nodeHeap),
    mergeLoop fuel nh = some g → mergeLoop (fuel + 1) nh = some g := by
  induction fuel with
  | zero =>
    intro nh g h
    rw [mergeLoop] at h
    rw [mergeLoop.eq_def]
    by_cases hc : 1 < nh.Len
    · rw [if_pos hc] at h; exact absurd h (by simp)
    · rw [if_neg hc] at h
      simp only [Nat.zero_add, if_neg hc]
      exact h
  | succ fuel ih =>
    intro nh g h
    rw [mergeLoop] at h
    rw [mergeLoop]
    by_cases hc : 1 < nh.Len
    · rw [if_pos hc] at h ⊢
      cases e1 : heap.Pop nh with
      | none => rw [e1] at h; exact absurd h (by simp)
      | some p1 =>
        obtain ⟨a, g1⟩ := p1
        rw [e1] at h
        simp only at h ⊢
        cases e2 : heap.Pop g1 with
        | none => rw [e2] at h; exact absurd h (by simp)
        | some p2 =>
          obtain ⟨b, g2⟩ := p2
          rw [e2] at h
          simp only at h ⊢
          exact ih _ _ h
    · rw [if_neg hc] at h ⊢; exact h

theorem mergeLoop_short_fuel (fuel : Nat) : ∀ nh : nodeHeap, nh.WF →
    fuel + 1 < nh.items.length → mergeLoop fuel nh = none := by
  induction fuel with
  | zero =>
    intro nh _ h
    rw [mergeLoop, if_pos (by unfold nodeHeap.Len; omega)]
  | succ fuel ih =>
    intro nh hw h
    obtain ⟨a, b, g1, g2, _, _, _, _, _, _, _, _, hpush, hloop⟩ :=
      merge_step nh hw (by omega)
    rw [hloop]
    obtain ⟨w3, l3⟩ := hpush (huffNode.mk 0 ((a.count + b.count) % uint32Mod) a b)
    exact ih _ w3 (by omega)

theorem mergeLoop_exact_fuel (fuel : Nat) : ∀ nh : nodeHeap, nh.WF →
    nh.items.length = fuel + 1 →
    ∃ g t s, mergeLoop fuel nh = some g ∧ g.WF ∧ g.items = [(t, s)] :=  by
  intro nh hw h
  obtain ⟨g, t, s, e, w, i, _⟩ := mergeLoop_spec fuel nh hw (by omega) (by omega)
  exact ⟨g, t, s, e, w, i⟩

/-- C16. For a non-empty slice of `n` nodes, none of them nil, the heap holds
`n` nodes when the merge loop starts; every iteration shortens the heap by
one; the loop ends after exactly `n - 1` iterations (with fewer iterations
more than one node is left, with `n - 1` exactly one is), and the final
`heap.Pop` finds that one node, returns it as the root and leaves the heap
empty. -/
theorem C16_termination (nodes : List huffNode) (hne : nodes ≠ [])
    (_hnn : ∀ x ∈ nodes, x ≠ huffNode.nil) :
    (nodes.foldl heap.Push (heap.Init { items := [], next := 0 })).Reachable ∧
    (nodes.foldl heap.Push (heap.Init { items := [], next := 0 })).Len = nodes.length ∧
    (∀ h : nodeHeap, h.Reachable → 1 < h.Len →
      ∃ a b g1 g2, heap.Pop h = some (a, g1) ∧ heap.Pop g1 = some (b, g2) ∧
        (heap.Push g2 (huffNode.mk 0 ((a.count + b.count) % uint32Mod) a b)).Len + 1 =
          h.Len ∧
        (∀ fuel, mergeLoop (fuel + 1) h = mergeLoop fuel (heap.Push g2
          (huffNode.mk 0 ((a.count + b.count) % uint32Mod) a b)))) ∧
    (∀ k, k + 1 < nodes.length →
      mergeLoop k (nodes.foldl heap.Push (heap.Init { items := [], next := 0 })) = none) ∧
    (∃ g t s, mergeLoop (nodes.length - 1)
        (nodes.foldl heap.Push (heap.Init { items := [], next := 0 })) = some g ∧
      mergeLoop nodes.length
        (nodes.foldl heap.Push (heap.Init { items := [], next := 0 })) = some g ∧
      g.items = [(t, s)] ∧ g.Len = 1 ∧
      heap.Pop g = some (t, { items := [], next := g.next }) ∧
      makeTreeFromNodeSlice nodes = some (some { root := t }, none)) := by
  have hlen : 0 < nodes.length := List.length_pos.mpr hne
  rw [heap_Init_empty]
  obtain ⟨w0, e0⟩ := foldl_Push_spec nodes _ WF_empty
  have hcard : (nodes.foldl heap.Push { items := [], next := 0 }).items.length =
      nodes.length := by
    have := congrArg Multiset.card e0
    simpa [nodeHeap.nodes] using this
  have hreach : ∀ (l : List huffNode) (h : nodeHeap), h.Reachable →
      (l.foldl heap.Push h).Reachable := by
    intro l
    induction l with
    | nil => intro h hr; exact hr
    | cons x xs ih => intro h hr; exact ih _ (nodeHeap.Reachable.push h x hr)
  have hr0 : (nodes.foldl heap.Push { items := [], next := 0 }).Reachable := by
    have := hreach nodes _ nodeHeap.Reachable.init
    rwa [heap_Init_empty] at this
  refine ⟨hr0, hcard, ?_, ?_, ?_⟩
  · intro h hr hl
    obtain ⟨a, b, g1, g2, e1, e2, _, _, _, _, _, _, hpush, hloop⟩ :=
      merge_step h (Reachable_WF h hr) hl
    exact ⟨a, b, g1, g2, e1, e2, (hpush _).2, hloop⟩
  · intro k hk
    exact mergeLoop_short_fuel k _ w0 (by omega)
  · obtain ⟨g, t, s, e, w, i⟩ := mergeLoop_exact_fuel (nodes.length - 1) _ w0 (by omega)
    have e' : mergeLoop nodes.length (nodes.foldl heap.Push { items := [], next := 0 }) =
        some g := by
      have := mergeLoop_more_fuel _ _ _ e
      rwa [Nat.sub_add_cancel hlen] at this
    have hpop : heap.Pop g = some (t, { items := [], next := g.next }) := by
      obtain ⟨c, k⟩ := g
      simp only at i
      subst i
      rfl
    refine ⟨g, t, s, e, e', i, by simp [nodeHeap.Len, i], hpop, ?_⟩
    unfold makeTreeFromNodeSlice
    rw [if_neg (by omega), heap_Init_empty]
    simp only [e', hpop]

theorem C16_termination_witness :
    [huffNode.leaf 97 2, huffNode.leaf 98 1, huffNode.leaf 99 1] ≠ [] ∧
    (∀ x ∈ [huffNode.leaf 97 2, huffNode.leaf 98 1, huffNode.leaf 99 1], x ≠ huffNode.nil) ∧
    ([huffNode.leaf 97 2, huffNode.leaf 98 1, huffNode.leaf 99 1].foldl heap.Push
      (heap.Init { items := [], next := 0 })).Len = 3 ∧
    (∀ k, k + 1 < 3 →
      mergeLoop k ([huffNode.leaf 97 2, huffNode.leaf 98 1, huffNode.leaf 99 1].foldl
        heap.Push (heap.Init { items := [], next := 0 })) = none) ∧
    (∃ g t, mergeLoop 2 ([huffNode.leaf 97 2, huffNode.leaf 98 1, huffNode.leaf 99 1].foldl
        heap.Push (heap.Init { items := [], next := 0 })) = some g ∧ g.Len = 1 ∧
      makeTreeFromNodeSlice [huffNode.leaf 97 2, huffNode.leaf 98 1, huffNode.leaf 99 1] =
        some (some { root := t }, none)) := by
  obtain ⟨_, h2, _, h4, g, t, s, e, _, _, hl, _, hm⟩ := C16_termination
    [huffNode.leaf 97 2, huffNode.leaf 98 1, huffNode.leaf 99 1] (by decide) (by decide)
  exact ⟨by decide, by decide, h2, h4, g, t, e, hl, hm⟩

/-! ## Counts are exact below `2 ^ 32` bytes -/

theorem leaves_node (c : Byte) (k : Nat) (l r : huffNode) (h : ¬ (l = .nil ∧ r = .nil)) :
    (huffNode.mk c k l r).leaves = l.leaves ++ r.leaves := by
  unfold huffNode.leaves
  simp only [huffNode.leavesAt, h, if_false]
  rw [leavesAt_shift l (0 + 1), leavesAt_shift r (0 + 1)]
  simp [List.map_map, Function.comp_def]

theorem StrictSum_count_weight (x : huffNode) (h : x.StrictSum) : x.count = x.weight := by
  induction x with
  | nil => simp [huffNode.StrictSum] at h
  | mk c k l r ihl ihr =>
    simp only [huffNode.StrictSum] at h
    rcases h with ⟨rfl, rfl⟩ | ⟨hl, hr, hk⟩
    · exact (leaf_facts (huffNode.mk c k .nil .nil) rfl).2.2.2.2.1.symm
    · have hn : ¬ (l = .nil ∧ r = .nil) := fun e => StrictSum_ne_nil l hl e.1
      unfold huffNode.weight
      rw [leaves_node c k l r hn, List.map_append, List.sum_append]
      show k = _
      rw [hk, ihl hl, ihr hr]
      rfl

theorem subtrees_StrictSum (t : huffNode) (h : t.StrictSum) :
    ∀ s ∈ t.subtrees, s.StrictSum ∧ s.leaves.Sublist t.leaves := by
  induction t with
  | nil => simp [huffNode.StrictSum] at h
  | mk c k l r ihl ihr =>
    intro s hs
    simp only [huffNode.subtrees, List.mem_cons, List.mem_append] at hs
    rcases hs with rfl | hs
    · exact ⟨h, List.Sublist.refl _⟩
    · simp only [huffNode.StrictSum] at h
      rcases h with ⟨rfl, rfl⟩ | ⟨hl, hr, _⟩
      · simp [huffNode.subtrees] at hs
      · have hn : ¬ (l = .nil ∧ r = .nil) := fun e => StrictSum_ne_nil l hl e.1
        rw [leaves_node c k l r hn]
        rcases hs with hs | hs
        · obtain ⟨h1, h2⟩ := ihl hl s hs
          exact ⟨h1, h2.trans (List.sublist_append_left _ _)⟩
        · obtain ⟨h1, h2⟩ := ihr hr s hs
          exact ⟨h1, h2.trans (List.sublist_append_right _ _)⟩

theorem countP_mem_nodup (buf cs : List Byte) (h : cs.Nodup) :
    buf.countP (fun b => decide (b ∈ cs)) = (cs.map (fun c => buf.count c)).sum := by
  induction buf with
  | nil => simp
  | cons b bs ih =>
    have hsum : (cs.map (fun c => (b :: bs).count c)).sum =
        (cs.map (fun c => bs.count c)).sum + cs.count b := by
      clear ih h
      induction cs with
      | nil => simp
      | cons c cs ih2 =>
        have e1 : (b :: bs).count c = bs.count c + if b = c then 1 else 0 := by
          simp [List.count_cons]
        have e2 : (c :: cs).count b = cs.count b + if c = b then 1 else 0 := by
          simp [List.count_cons]
        simp only [List.map_cons, List.sum_cons]
        rw [ih2, e1, e2]
        by_cases hbc : b = c
        · subst hbc
          simp only [if_true]
          omega
        · have hcb : ¬ c = b := fun e => hbc e.symm
          simp only [hbc, hcb, if_false]
          omega
    rw [hsum, List.countP_cons, ih]
    by_cases hb : b ∈ cs
    · rw [List.count_eq_one_of_mem h hb]; simp [hb]
    · rw [List.count_eq_zero_of_not_mem hb]; simp [hb]

theorem structure_of_StrictSum (s : huffNode) (h : s.StrictSum) :
    (s.left = .nil ∧ s.right = .nil) ∨
      (s.left ≠ .nil ∧ s.right ≠ .nil ∧ s.count = s.left.count + s.right.count) := by
  cases s with
  | nil => simp [huffNode.StrictSum] at h
  | mk c k l r =>
    simp only [huffNode.StrictSum] at h
    rcases h with h | ⟨hl, hr, hk⟩
    · exact Or.inl h
    · exact Or.inr ⟨StrictSum_ne_nil l hl, StrictSum_ne_nil r hr, hk⟩

/-- C17. For an input of fewer than `2 ^ 32` bytes no addition wraps around:
every increment of a counter of the map starts from a value whose successor
is below `2 ^ 32`, and in the tree built every node with children has the
exact sum of their counts, below `2 ^ 32`, as count. The count of every node
is the number of input bytes whose symbol is at a leaf below the node, and
the count of the root is the length of the input. -/
theorem C17_no_count_overflow (r : MapRange) (buf : List Byte)
    (hlen : buf.length < 2 ^ 32) :
    (∀ pre b post, buf = pre ++ b :: post →
      (valOf (countBytes pre) b).getD 0 + 1 < 2 ^ 32 ∧
      valOf (countBytes (pre ++ [b])) b = some ((valOf (countBytes pre) b).getD 0 + 1)) ∧
    (buf ≠ [] → ∃ t, MakeTreeFromText r (.ok buf) = some (some { root := t }, none) ∧
      (∀ s ∈ t.subtrees,
        ((s.left = huffNode.nil ∧ s.right = huffNode.nil) ∨
          (s.left ≠ huffNode.nil ∧ s.right ≠ huffNode.nil ∧
            s.left.count + s.right.count < 2 ^ 32 ∧
            s.count = s.left.count + s.right.count)) ∧
        s.count = buf.countP (fun b => decide (b ∈ s.leaves.map huffNode.char))) ∧
      t.count = buf.length) := by
  constructor
  · intro pre b post hbuf
    have hpre : pre.count b < buf.length := by
      have := List.count_le_length b pre
      rw [hbuf]
      simp only [List.length_append, List.length_cons]
      omega
    have hv : (valOf (countBytes pre) b).getD 0 = pre.count b := by
      rw [valOf_countBytes]
      by_cases hm : b ∈ pre
      · simp only [hm, if_true, Option.getD_some]
        exact Nat.mod_eq_of_lt (by unfold uint32Mod; omega)
      · simp only [hm, if_false, Option.getD_none]
        exact (List.count_eq_zero_of_not_mem hm).symm
    refine ⟨by omega, ?_⟩
    rw [countBytes_append, valOf_incrCount, if_pos rfl, hv]
    congr 1
    exact Nat.mod_eq_of_lt (by unfold uint32Mod; omega)
  · intro hne
    have hsum : ((nodesOfCounts r (countBytes buf)).map huffNode.count).sum < uint32Mod := by
      rw [nodesOfCounts_sum]
      have := sum_countBytes_le buf
      unfold uint32Mod
      omega
    obtain ⟨t, e, hss, _, _⟩ := makeTree_exact (nodesOfCounts r (countBytes buf))
      (nodesOfCounts_isLeaf r _) (nodesOfCounts_ne_nil r _ (countBytes_ne_nil buf hne)) hsum
    obtain ⟨t2, e2, _, hp, hnd, hmem⟩ := MakeTreeFromText_leaves r buf hne
    rw [MakeTreeFromText_ok, e] at e2
    simp only [Option.some.injEq, Prod.mk.injEq, and_true, HuffTree.mk.injEq] at e2
    subst e2
    have hcount : ∀ x ∈ t.leaves, x.count = buf.count x.char := by
      intro x hx
      obtain ⟨k, v, hkv, hpe⟩ := (mem_nodesOfCounts r _ x).mp (hp.mem_iff.mp hx)
      rw [hpe]
      have hv := ((mem_countBytes buf k v).mp hkv).2
      have := List.count_le_length k buf
      rw [Nat.mod_eq_of_lt (by unfold uint32Mod; omega)] at hv
      exact hv
    have hnode : ∀ s : huffNode, s.StrictSum → s.leaves.Sublist t.leaves →
        s.count = buf.countP (fun b => decide (b ∈ s.leaves.map huffNode.char)) := by
      intro s hs hsub
      rw [countP_mem_nodup buf _ ((hsub.map huffNode.char).nodup hnd),
        StrictSum_count_weight s hs]
      unfold huffNode.weight
      rw [List.map_map]
      congr 1
      apply List.map_congr_left
      intro x hx
      exact hcount x (hsub.subset hx)
    refine ⟨t, by rw [MakeTreeFromText_ok, e], ?_, ?_⟩
    · intro s hs
      obtain ⟨h1, h2⟩ := subtrees_StrictSum t hss s hs
      have hc := hnode s h1 h2
      refine ⟨?_, hc⟩
      rcases structure_of_StrictSum s h1 with h | ⟨ha, hb, hk⟩
      · exact Or.inl h
      · refine Or.inr ⟨ha, hb, ?_, hk⟩
        rw [← hk, hc]
        have := List.countP_le_length (fun b => decide (b ∈ s.leaves.map huffNode.char))
          (l := buf)
        omega
    · rw [hnode t hss (List.Sublist.refl _)]
      rw [List.countP_eq_length]
      intro b hb
      simpa using (hmem b).mpr hb

theorem C17_no_count_overflow_witness :
    ([97, 98, 97] : List Byte).length < 2 ^ 32 ∧
    (([97, 98, 97] : List Byte) ≠ [] →
      ∃ t, MakeTreeFromText MapRange.inOrder (.ok [97, 98, 97]) =
        some (some { root := t }, none) ∧
      (∀ s ∈ t.subtrees,
        ((s.left = huffNode.nil ∧ s.right = huffNode.nil) ∨
          (s.left ≠ huffNode.nil ∧ s.right ≠ huffNode.nil ∧
            s.left.count + s.right.count < 2 ^ 32 ∧
            s.count = s.left.count + s.right.count)) ∧
        s.count = ([97, 98, 97] : List Byte).countP
          (fun b => decide (b ∈ s.leaves.map huffNode.char))) ∧
      t.count = ([97, 98, 97] : List Byte).length) :=
  ⟨by decide, (C17_no_count_overflow MapRange.inOrder [97, 98, 97] (by decide)).2⟩

/-! ## Stubs, decoding and the command line -/

/-- C18, evaluated. With three arguments `main` prints `Improperly-formatted
text file.` and exits with status 1 exactly when `MakeTreeFromText` returned
no error, and ends silently with status 0 when it returned one: on a readable
file holding the byte `a` the run fails, on an unreadable file it succeeds.
With any other number of arguments it prints the usage line and exits with
status 1. -/
theorem C18_exit_status_inverted :
    main MapRange.inOrder ["huffman", "-e", "in", "out"] (.ok [97]) =
      some { stdout := ["Improperly-formatted text file."], status := 1 } ∧
    main MapRange.inOrder ["huffman", "-e", "in", "out"] (.error "no such file") =
      some { stdout := [], status := 0 } ∧
    (∀ (r : MapRange) (args : List String) (filler : Except String (List Byte))
      (t : Option HuffTree), args.length = 4 →
      MakeTreeFromText r filler = some (t, none) →
      main r args filler = some { stdout := ["Improperly-formatted text file."], status := 1 }) ∧
    (∀ (r : MapRange) (args : List String) (filler : Except String (List Byte))
      (t : Option HuffTree) (e : String), args.length = 4 →
      MakeTreeFromText r filler = some (t, some e) →
      main r args filler = some { stdout := [], status := 0 }) ∧
    (∀ (r : MapRange) (progName : String) (rest : List String)
      (filler : Except String (List Byte)), (progName :: rest).length ≠ 4 →
      main r (progName :: rest) filler = some (Usage progName)) := by
  have h1 : ∀ (r : MapRange) (args : List String) (filler : Except String (List Byte))
      (t : Option HuffTree), args.length = 4 →
      MakeTreeFromText r filler = some (t, none) →
      main r args filler =
        some { stdout := ["Improperly-formatted text file."], status := 1 } := by
    intro r args filler t ha hm
    unfold main
    rw [if_neg (by simp [ha]), hm]
    simp
  have h2 : ∀ (r : MapRange) (args : List String) (filler : Except String (List Byte))
      (t : Option HuffTree) (e : String), args.length = 4 →
      MakeTreeFromText r filler = some (t, some e) →
      main r args filler = some { stdout := [], status := 0 } := by
    intro r args filler t e ha hm
    unfold main
    rw [if_neg (by simp [ha]), hm]
    simp
  refine ⟨h1 _ _ _ (some { root := huffNode.leaf 97 1 }) rfl (by decide),
    h2 _ _ _ none "no such file" rfl rfl, h1, h2, ?_⟩
  intro r progName rest filler hlen
  unfold main
  rw [if_pos hlen]

/-- C12, evaluated. `WriteToFile` returns the error `Undefined method` for
every tree and file name and writes nothing; `MakeTreeFromTreeFile` returns
that error for every file name, together with a tree whose root is nil, which
has no leaf, while the tree of the input `ab` has two. -/
theorem C12_serialization_stubs :
    (∀ (t : HuffTree) (filename : String), WriteToFile t filename = some "Undefined method") ∧
    (∀ filename : String, MakeTreeFromTreeFile filename =
      (some { root := huffNode.nil }, some "Undefined method")) ∧
    MakeTreeFromText MapRange.inOrder (.ok [97, 98]) =
      some (some (HuffTree.mk (huffNode.mk 0 2 (huffNode.leaf 97 1) (huffNode.leaf 98 1))),
        none) ∧
    (huffNode.mk 0 2 (huffNode.leaf 97 1) (huffNode.leaf 98 1)).leavesAt 0 =
      [(huffNode.leaf 97 1, 1), (huffNode.leaf 98 1, 1)] ∧
    huffNode.nil.leavesAt 0 = [] := by
  refine ⟨fun _ _ => rfl, fun _ => rfl, by decide, by decide, rfl⟩

/-- C13, evaluated. Under the tree of `aaaabbbcc` the one-bit stream `1` ends
at the internal node, part-way down the paths of `b` and `c`; `DecodeText`
returns no error and has written nothing. It does so on every non-empty bit
stream under every tree. -/
theorem C13_truncated_stream_accepted :
    DecodeText (HuffTree.mk (huffNode.mk 0 9 (huffNode.leaf 97 4)
      (huffNode.mk 0 5 (huffNode.leaf 99 2) (huffNode.leaf 98 3)))) (.ok [true]) none =
      ([], none) ∧
    (∀ (t : HuffTree) (b : Bool) (bits : List Bool),
      DecodeText t (.ok (b :: bits)) none = ([], none)) ∧
    (∀ t : HuffTree, DecodeText t (.ok []) none = ([], some "EOF")) := by
  refine ⟨rfl, fun _ _ _ => rfl, fun _ => rfl⟩

/-! ## The tree up to the order of the node slice -/

theorem insert_sorted (x : huffNode) (n : Nat) (L : List heapItem)
    (hs : L.Pairwise heapItem.lt) (hb : ∀ y ∈ L, y.2 < n) :
    ∃ L2 : List heapItem, L2.Perm ((x, n) :: L) ∧ L2.Pairwise heapItem.lt ∧
      L2.map Prod.fst = insertNode x (L.map Prod.fst) := by
  induction L with
  | nil => exact ⟨[(x, n)], List.Perm.refl _, by simp, rfl⟩
  | cons y ys ih =>
    rw [List.pairwise_cons] at hs
    by_cases hc : y.1.count ≤ x.count
    · obtain ⟨L2, p, s, m⟩ := ih hs.2 (fun z hz => hb z (List.mem_cons_of_mem _ hz))
      refine ⟨y :: L2, (p.cons y).trans (List.Perm.swap _ _ _), ?_, ?_⟩
      · rw [List.pairwise_cons]
        refine ⟨?_, s⟩
        intro z hz
        rcases List.mem_cons.mp (p.mem_iff.mp hz) with e | e
        · subst e
          have := hb y (List.mem_cons_self _ _)
          unfold heapItem.lt
          simp only
          omega
        · exact hs.1 z e
      · simp only [List.map_cons, insertNode, hc, if_true, m]
    · refine ⟨(x, n) :: y :: ys, List.Perm.refl _, ?_, ?_⟩
      · rw [List.pairwise_cons, List.pairwise_cons]
        refine ⟨?_, hs⟩
        intro z hz
        rcases List.mem_cons.mp hz with e | e
        · subst e
          unfold heapItem.lt
          simp only
          omega
        · have := hs.1 z e
          unfold heapItem.lt at this ⊢
          simp only
          omega
      · simp only [List.map_cons, insertNode, hc, if_false]

theorem Holds_empty : nodeHeap.Holds { items := [], next := 0 } [] :=
  ⟨[], List.Perm.refl _, List.Pairwise.nil, rfl⟩

theorem Holds_length (h : nodeHeap) (N : List huffNode) (hh : h.Holds N) :
    h.items.length = N.length := by
  obtain ⟨L, p, _, m⟩ := hh
  rw [← p.length_eq, ← m, List.length_map]

theorem Holds_Push (h : nodeHeap) (N : List huffNode) (x : huffNode) (hw : h.WF)
    (hh : h.Holds N) : (heap.Push h x).WF ∧ (heap.Push h x).Holds (insertNode x N) := by
  obtain ⟨L, p, s, m⟩ := hh
  obtain ⟨w, pp, _⟩ := heap_Push_spec h x hw
  obtain ⟨L2, p2, s2, m2⟩ := insert_sorted x h.next L s
    (fun y hy => hw.2.1 y (p.mem_iff.mp hy))
  refine ⟨w, L2, (p2.trans (p.cons _)).trans pp.symm, s2, ?_⟩
  rw [m2, m]

theorem Holds_Pop (h : nodeHeap) (a : huffNode) (N : List huffNode) (hw : h.WF)
    (hh : h.Holds (a :: N)) :
    ∃ g, heap.Pop h = some (a, g) ∧ g.WF ∧ g.Holds N := by
  obtain ⟨L, p, s, m⟩ := hh
  have hlen : 0 < h.items.length := by
    rw [← p.length_eq, ← List.length_map L Prod.fst, m]
    simp
  obtain ⟨x, sx, g, e, w, pg, _, _, hmin⟩ := heap_Pop_spec h hw hlen
  cases L with
  | nil => simp at m
  | cons y ys =>
    rw [List.pairwise_cons] at s
    simp only [List.map_cons, List.cons.injEq] at m
    have hy : y = (x, sx) := by
      by_contra hne
      have h1 : (x, sx) ∈ ys := by
        have : (x, sx) ∈ y :: ys := p.mem_iff.mpr (pg.mem_iff.mpr (List.mem_cons_self _ _))
        rcases List.mem_cons.mp this with e1 | e1
        · exact absurd e1.symm hne
        · exact e1
      have h2 : y ∈ g.items := by
        have : y ∈ (x, sx) :: g.items := pg.mem_iff.mp (p.mem_iff.mp (List.mem_cons_self _ _))
        rcases List.mem_cons.mp this with e1 | e1
        · exact absurd e1 hne
        · exact e1
      have h3 := s.1 _ h1
      have h4 := hmin y h2
      unfold heapItem.lt at h3
      simp only at h3
      omega
    subst hy
    simp only at m
    obtain ⟨rfl, m2⟩ := m
    exact ⟨g, e, w, ys, (p.trans pg).cons_inv, s.2, m2⟩

theorem insertNode_length (m : huffNode) (N : List huffNode) :
    (insertNode m N).length = N.length + 1 := by
  induction N with
  | nil => rfl
  | cons x xs ih =>
    by_cases hc : x.count ≤ m.count
    · simp [insertNode, hc, ih]
    · simp [insertNode, hc]

theorem mergeLoop_list (fuel : Nat) : ∀ (h : nodeHeap) (N : List huffNode), h.WF →
    h.Holds N → N ≠ [] → N.length ≤ fuel + 1 →
    ∃ g t s, mergeLoop fuel h = some g ∧ g.items = [(t, s)] ∧
      mergeList fuel N = some t := by
  have single : ∀ (fuel : Nat) (h : nodeHeap) (t : huffNode), h.Holds [t] →
      ∃ g t2 s, mergeLoop fuel h = some g ∧ g.items = [(t2, s)] ∧
        mergeList fuel [t] = some t2 := by
    intro fuel h t hh
    obtain ⟨L, p, _, m⟩ := hh
    obtain ⟨y, rfl⟩ : ∃ y, L = [y] := List.length_eq_one.mp (by
      rw [← List.length_map L Prod.fst, m]; rfl)
    have hi : h.items = [y] := List.perm_singleton.mp p.symm
    simp only [List.map_cons, List.map_nil, List.cons.injEq, and_true] at m
    refine ⟨h, t, y.2, ?_, by rw [hi, ← m], ?_⟩
    · cases fuel with
      | zero => simp [mergeLoop, nodeHeap.Len, hi]
      | succ k => simp [mergeLoop, nodeHeap.Len, hi]
    · cases fuel <;> rfl
  induction fuel with
  | zero =>
    intro h N _ hh hne hl
    cases N with
    | nil => exact absurd rfl hne
    | cons t rest =>
      cases rest with
      | nil => exact single 0 h t hh
      | cons b rest => simp at hl
  | succ fuel ih =>
    intro h N hw hh hne hl
    cases N with
    | nil => exact absurd rfl hne
    | cons a rest =>
      cases rest with
      | nil => exact single _ h a hh
      | cons b rest =>
        have hlen := Holds_length h _ hh
        obtain ⟨g1, e1, w1, hh1⟩ := Holds_Pop h a _ hw hh
        obtain ⟨g2, e2, w2, hh2⟩ := Holds_Pop g1 b _ w1 hh1
        obtain ⟨w3, hh3⟩ := Holds_Push g2 rest (mergeNodes a b) w2 hh2
        obtain ⟨g, t, s, e, i, ml⟩ := ih (heap.Push g2 (mergeNodes a b)) _ w3 hh3
          (by
            intro e0
            have := congrArg List.length e0
            rw [insertNode_length] at this
            simp at this)
          (by
            rw [insertNode_length]
            simp only [List.length_cons] at hl
            omega)
        refine ⟨g, t, s, ?_, i, ?_⟩
        · rw [mergeLoop, if_pos (by unfold nodeHeap.Len; rw [hlen]; simp)]
          simp only [e1, e2]
          exact e
        · rw [mergeList]
          exact ml

theorem foldl_Push_Holds (nodes : List huffNode) : ∀ (h : nodeHeap) (N : List huffNode),
    h.WF → h.Holds N →
    (nodes.foldl heap.Push h).WF ∧
    (nodes.foldl heap.Push h).Holds (nodes.foldl (fun M x => insertNode x M) N) := by
  induction nodes with
  | nil => intro h N hw hh; exact ⟨hw, hh⟩
  | cons x xs ih =>
    intro h N hw hh
    obtain ⟨w, hh2⟩ := Holds_Push h N x hw hh
    exact ih _ _ w hh2

theorem foldl_insertNode_length (nodes : List huffNode) : ∀ N : List huffNode,
    (nodes.foldl (fun M x => insertNode x M) N).length = nodes.length + N.length := by
  induction nodes with
  | nil => intro N; simp
  | cons x xs ih =>
    intro N
    rw [List.foldl_cons, ih, insertNode_length]
    simp only [List.length_cons]
    omega

/-- `makeTreeFromNodeSlice` computes what the merge loop on the list of nodes
in order of priority computes. -/
theorem makeTree_eq_mergeList (nodes : List huffNode) (hne : nodes ≠ []) :
    ∃ t, makeTreeFromNodeSlice nodes = some (some { root := t }, none) ∧
      mergeList nodes.length (sortNodes nodes) = some t := by
  have hlen : 0 < nodes.length := List.length_pos.mpr hne
  obtain ⟨w0, hh0⟩ := foldl_Push_Holds nodes _ [] WF_empty Holds_empty
  have hl0 : (sortNodes nodes).length = nodes.length := by
    unfold sortNodes
    rw [foldl_insertNode_length]
    rfl
  obtain ⟨g, t, s, e, i, ml⟩ := mergeLoop_list nodes.length _ (sortNodes nodes) w0 hh0
    (by intro e0; rw [e0] at hl0; simp at hl0; omega) (by omega)
  have hpop : heap.Pop g = some (t, { items := [], next := g.next }) := by
    obtain ⟨c, k⟩ := g
    simp only at i
    subst i
    rfl
  refine ⟨t, ?_, ml⟩
  unfold makeTreeFromNodeSlice
  rw [if_neg (by omega), heap_Init_empty]
  simp only [e, hpop]

theorem shape_count (x : huffNode) : x.shape.count = x.count := by
  cases x <;> rfl

theorem shape_eq_nil (x : huffNode) : x.shape = .nil ↔ x = .nil := by
  cases x <;> simp [huffNode.shape]

theorem shape_mergeNodes (a b : huffNode) :
    (mergeNodes a b).shape = mergeNodes a.shape b.shape := by
  simp [mergeNodes, huffNode.shape, shape_count]

theorem shape_leaf (x : huffNode) (h : x.isLeaf = true) :
    x.shape = huffNode.leaf 0 x.count := by
  obtain ⟨c, k, rfl⟩ := (isLeaf_iff x).mp h
  rfl

theorem insertNode_shape (m : huffNode) (N : List huffNode) :
    (insertNode m N).map huffNode.shape = insertNode m.shape (N.map huffNode.shape) := by
  induction N with
  | nil => rfl
  | cons x xs ih =>
    by_cases hc : x.count ≤ m.count
    · simp [insertNode, hc, ih, shape_count]
    · simp [insertNode, hc, shape_count]

theorem mergeList_shape (fuel : Nat) : ∀ N : List huffNode,
    mergeList fuel (N.map huffNode.shape) = (mergeList fuel N).map huffNode.shape := by
  induction fuel with
  | zero =>
    intro N
    cases N with
    | nil => rfl
    | cons a rest =>
      cases rest with
      | nil => rfl
      | cons b rest => rfl
  | succ fuel ih =>
    intro N
    cases N with
    | nil => rfl
    | cons a rest =>
      cases rest with
      | nil => rfl
      | cons b rest =>
        simp only [List.map_cons, mergeList]
        rw [← ih, insertNode_shape, shape_mergeNodes]

theorem leavesAt_shape (t : huffNode) : ∀ d,
    t.shape.leavesAt d = (t.leavesAt d).map (fun p => (p.1.shape, p.2)) := by
  induction t with
  | nil => intro d; rfl
  | mk c k l r ihl ihr =>
    intro d
    by_cases h : l = .nil ∧ r = .nil
    · obtain ⟨rfl, rfl⟩ := h
      simp [huffNode.shape, huffNode.leavesAt]
    · have h2 : ¬ (l.shape = .nil ∧ r.shape = .nil) := by
        rw [shape_eq_nil, shape_eq_nil]; exact h
      simp only [huffNode.shape, huffNode.leavesAt, h, h2, if_false, List.map_append,
        ihl, ihr]

theorem cost_shape (t : huffNode) : t.shape.cost = t.cost := by
  unfold huffNode.cost
  rw [leavesAt_shape, List.map_map]
  congr 1
  apply List.map_congr_left
  intro p _
  simp [shape_count]

theorem insertNode_perm (m : huffNode) (N : List huffNode) :
    (insertNode m N).Perm (m :: N) := by
  induction N with
  | nil => exact List.Perm.refl _
  | cons x xs ih =>
    by_cases hc : x.count ≤ m.count
    · simp only [insertNode, hc, if_true]
      exact (ih.cons x).trans (List.Perm.swap _ _ _)
    · simp only [insertNode, hc, if_false]
      exact List.Perm.refl _

theorem insertNode_sorted (m : huffNode) (N : List huffNode)
    (hs : (N.map huffNode.count).Sorted (· ≤ ·)) :
    ((insertNode m N).map huffNode.count).Sorted (· ≤ ·) := by
  induction N with
  | nil => simp [insertNode]
  | cons x xs ih =>
    simp only [List.map_cons, List.sorted_cons] at hs
    by_cases hc : x.count ≤ m.count
    · simp only [insertNode, hc, if_true, List.map_cons, List.sorted_cons]
      refine ⟨?_, ih hs.2⟩
      intro c hcm
      obtain ⟨z, hz, rfl⟩ := List.mem_map.mp hcm
      rcases List.mem_cons.mp ((insertNode_perm m xs).mem_iff.mp hz) with e | e
      · rw [e]; exact hc
      · exact hs.1 _ (List.mem_map_of_mem _ e)
    · simp only [insertNode, hc, if_false, List.map_cons, List.sorted_cons]
      refine ⟨?_, hs.1, hs.2⟩
      intro c hcm
      rcases List.mem_cons.mp hcm with e | e
      · omega
      · have := hs.1 c e
        omega

theorem foldl_insertNode_facts (nodes : List huffNode) : ∀ N : List huffNode,
    (N.map huffNode.count).Sorted (· ≤ ·) →
    (nodes.foldl (fun M x => insertNode x M) N).Perm (nodes ++ N) ∧
    ((nodes.foldl (fun M x => insertNode x M) N).map huffNode.count).Sorted (· ≤ ·) := by
  induction nodes with
  | nil => intro N hs; exact ⟨List.Perm.refl _, hs⟩
  | cons x xs ih =>
    intro N hs
    obtain ⟨p, s⟩ := ih (insertNode x N) (insertNode_sorted x N hs)
    refine ⟨p.trans ?_, s⟩
    exact ((insertNode_perm x N).append_left xs).trans List.perm_middle

theorem sortNodes_facts (nodes : List huffNode) :
    (sortNodes nodes).Perm nodes ∧
    ((sortNodes nodes).map huffNode.count).Sorted (· ≤ ·) := by
  obtain ⟨p, s⟩ := foldl_insertNode_facts nodes [] (by simp)
  exact ⟨by simpa using p, s⟩

theorem sortNodes_counts (nodes nodes2 : List huffNode) (hp : nodes.Perm nodes2) :
    (sortNodes nodes).map huffNode.count = (sortNodes nodes2).map huffNode.count := by
  obtain ⟨p1, s1⟩ := sortNodes_facts nodes
  obtain ⟨p2, s2⟩ := sortNodes_facts nodes2
  exact List.eq_of_perm_of_sorted (((p1.trans hp).trans p2.symm).map _) s1 s2

theorem eq_of_map_eq_of_nodup (f : huffNode → Nat) : ∀ l1 l2 : List huffNode,
    l1.Perm l2 → (l1.map f).Nodup → l1.map f = l2.map f → l1 = l2 := by
  intro l1
  induction l1 with
  | nil => intro l2 hp _ _; exact hp.nil_eq
  | cons a t1 ih =>
    intro l2 hp hn hm
    cases l2 with
    | nil => simp at hm
    | cons b t2 =>
      simp only [List.map_cons, List.cons.injEq, List.nodup_cons] at hm hn
      have hab : a = b := by
        have : a ∈ b :: t2 := hp.mem_iff.mp (List.mem_cons_self _ _)
        rcases List.mem_cons.mp this with e | e
        · exact e
        · exfalso
          apply hn.1
          rw [hm.2]
          exact List.mem_map_of_mem f e
      subst hab
      rw [ih t2 hp.cons_inv hn.2 hm.2]

/-- Two orders of the same leaf nodes: the lists in order of priority have
the same shapes, and are equal when the counts are pairwise distinct. -/
theorem sortNodes_perm_leaves (nodes nodes2 : List huffNode)
    (hl : ∀ x ∈ nodes, x.isLeaf = true) (hp : nodes.Perm nodes2) :
    (sortNodes nodes).map huffNode.shape = (sortNodes nodes2).map huffNode.shape ∧
    ((nodes.map huffNode.count).Nodup → sortNodes nodes = sortNodes nodes2) := by
  obtain ⟨p1, _⟩ := sortNodes_facts nodes
  obtain ⟨p2, _⟩ := sortNodes_facts nodes2
  have hc := sortNodes_counts nodes nodes2 hp
  have hs : ∀ l : List huffNode, (∀ x ∈ l, x.isLeaf = true) →
      l.map huffNode.shape = (l.map huffNode.count).map (huffNode.leaf 0) := by
    intro l hx
    rw [List.map_map]
    apply List.map_congr_left
    intro x hxl
    exact shape_leaf x (hx x hxl)
  constructor
  · rw [hs _ (fun x hx => hl x (p1.mem_iff.mp hx)),
      hs _ (fun x hx => hl x (hp.mem_iff.mpr (p2.mem_iff.mp hx))), hc]
  · intro hn
    exact eq_of_map_eq_of_nodup huffNode.count _ _ ((p1.trans hp).trans p2.symm)
      ((p1.map huffNode.count).nodup_iff.mpr hn) hc

/-- The trees built from two orders of the same leaf nodes have the same shape
and counts, and are equal when the counts are pairwise distinct. -/
theorem makeTree_perm (nodes nodes2 : List huffNode)
    (hl : ∀ x ∈ nodes, x.isLeaf = true) (hne : nodes ≠ []) (hp : nodes.Perm nodes2) :
    ∃ t t2, makeTreeFromNodeSlice nodes = some (some { root := t }, none) ∧
      makeTreeFromNodeSlice nodes2 = some (some { root := t2 }, none) ∧
      t.shape = t2.shape ∧ ((nodes.map huffNode.count).Nodup → t = t2) := by
  have hne2 : nodes2 ≠ [] := fun e => hne (by rw [e] at hp; exact hp.eq_nil)
  obtain ⟨t, e, ml⟩ := makeTree_eq_mergeList nodes hne
  obtain ⟨t2, e2, ml2⟩ := makeTree_eq_mergeList nodes2 hne2
  obtain ⟨hsh, heq⟩ := sortNodes_perm_leaves nodes nodes2 hl hp
  rw [← hp.length_eq] at ml2
  refine ⟨t, t2, e, e2, ?_, ?_⟩
  · have h1 := mergeList_shape nodes.length (sortNodes nodes)
    have h2 := mergeList_shape nodes.length (sortNodes nodes2)
    rw [ml] at h1
    rw [ml2, ← hsh, h1] at h2
    simpa using h2
  · intro hn
    rw [heq hn, ml2] at ml
    exact (Option.some.inj ml).symm

theorem nodesOfCounts_counts (r : MapRange) (m : List (Byte × Nat)) :
    ((nodesOfCounts r m).map huffNode.count).Perm (m.map Prod.snd) := by
  unfold nodesOfCounts
  rw [List.map_map]
  have : (huffNode.count ∘ fun kv : Byte × Nat => huffNode.leaf kv.1 kv.2) = Prod.snd := by
    funext kv; rfl
  rw [this]
  exact (r.perm m).map Prod.snd

/-- C8, as the code has it. For two orders of the same non-empty set of leaf
nodes `makeTreeFromNodeSlice` returns trees of the same shape with the same
count at every node, hence with the same leaves and the same weighted path
length, and it returns the same tree when the counts of the leaves are
pairwise distinct; only which of several symbols of equal count sits at which
leaf of that count depends on the order. Accordingly the trees
`MakeTreeFromText` builds from one input under two orders of enumeration of
the map have the same shape, counts, leaves and weighted path length, and are
the same tree when no two byte values occur equally often. -/
theorem C8_order_independent_shape :
    (∀ nodes nodes2 : List huffNode, (∀ x ∈ nodes, x.isLeaf = true) → nodes ≠ [] →
      nodes.Perm nodes2 →
      ∃ t t2, makeTreeFromNodeSlice nodes = some (some { root := t }, none) ∧
        makeTreeFromNodeSlice nodes2 = some (some { root := t2 }, none) ∧
        t.shape = t2.shape ∧
        (↑t.leaves : Multiset huffNode) = ↑t2.leaves ∧
        t.cost = t2.cost ∧
        ((nodes.map huffNode.count).Nodup → t = t2)) ∧
    (∀ (r r2 : MapRange) (buf : List Byte), buf ≠ [] →
      ∃ t t2, MakeTreeFromText r (.ok buf) = some (some { root := t }, none) ∧
        MakeTreeFromText r2 (.ok buf) = some (some { root := t2 }, none) ∧
        t.shape = t2.shape ∧
        (↑t.leaves : Multiset huffNode) = ↑t2.leaves ∧
        t.cost = t2.cost ∧
        (((countBytes buf).map Prod.snd).Nodup → t = t2)) := by
  have key : ∀ nodes nodes2 : List huffNode, (∀ x ∈ nodes, x.isLeaf = true) → nodes ≠ [] →
      nodes.Perm nodes2 →
      ∃ t t2, makeTreeFromNodeSlice nodes = some (some { root := t }, none) ∧
        makeTreeFromNodeSlice nodes2 = some (some { root := t2 }, none) ∧
        t.shape = t2.shape ∧
        (↑t.leaves : Multiset huffNode) = ↑t2.leaves ∧
        t.cost = t2.cost ∧
        ((nodes.map huffNode.count).Nodup → t = t2) := by
    intro nodes nodes2 hl hne hp
    have hl2 : ∀ x ∈ nodes2, x.isLeaf = true := fun x hx => hl x (hp.mem_iff.mpr hx)
    have hne2 : nodes2 ≠ [] := fun e => hne (by rw [e] at hp; exact hp.eq_nil)
    have hco : (↑nodes : Multiset huffNode) = ↑nodes2 := Multiset.coe_eq_coe.mpr hp
    obtain ⟨t, t2, e, e2, hsh, heq⟩ := makeTree_perm nodes nodes2 hl hne hp
    obtain ⟨u, eu, _, _, _, hlv⟩ := makeTree_of_leaves nodes hl hne
    obtain ⟨u2, eu2, _, _, _, hlv2⟩ := makeTree_of_leaves nodes2 hl2 hne2
    rw [e] at eu
    rw [e2] at eu2
    simp only [Option.some.injEq, Prod.mk.injEq, and_true, HuffTree.mk.injEq] at eu eu2
    subst eu eu2
    refine ⟨t, t2, e, e2, hsh, by rw [hlv, hlv2, hco], ?_, heq⟩
    rw [← cost_shape t, hsh, cost_shape]
  refine ⟨key, ?_⟩
  intro r r2 buf hne
  have hperm : (nodesOfCounts r (countBytes buf)).Perm (nodesOfCounts r2 (countBytes buf)) :=
    ((r.perm _).trans (r2.perm _).symm).map _
  obtain ⟨t, t2, e, e2, hsh, hlv, hc, heq⟩ := key _ _ (nodesOfCounts_isLeaf r _)
    (nodesOfCounts_ne_nil r _ (countBytes_ne_nil buf hne)) hperm
  refine ⟨t, t2, e, e2, hsh, hlv, hc, ?_⟩
  intro hn
  exact heq ((nodesOfCounts_counts r _).nodup_iff.mpr hn)

theorem C8_order_independent_shape_witness :
    (∃ t t2, makeTreeFromNodeSlice [huffNode.leaf 97 1, huffNode.leaf 98 1, huffNode.leaf 99 2] =
        some (some { root := t }, none) ∧
      makeTreeFromNodeSlice [huffNode.leaf 99 2, huffNode.leaf 98 1, huffNode.leaf 97 1] =
        some (some { root := t2 }, none) ∧
      t.shape = t2.shape ∧
      (↑t.leaves : Multiset huffNode) = ↑t2.leaves ∧
      t.cost = t2.cost) ∧
    (∃ t t2, MakeTreeFromText MapRange.inOrder (.ok [97, 98, 98]) =
        some (some { root := t }, none) ∧
      MakeTreeFromText MapRange.reversed (.ok [97, 98, 98]) =
        some (some { root := t2 }, none) ∧
      t.shape = t2.shape ∧ t = t2) := by
  obtain ⟨t, t2, e, e2, hsh, hlv, hc, _⟩ := C8_order_independent_shape.1
    [huffNode.leaf 97 1, huffNode.leaf 98 1, huffNode.leaf 99 2]
    [huffNode.leaf 99 2, huffNode.leaf 98 1, huffNode.leaf 97 1] (by decide) (by decide)
    ((List.reverse_perm _).symm)
  obtain ⟨u, u2, f, f2, gsh, _, _, geq⟩ := C8_order_independent_shape.2
    MapRange.inOrder MapRange.reversed [97, 98, 98] (by decide)
  exact ⟨⟨t, t2, e, e2, hsh, hlv, hc⟩, ⟨u, u2, f, f2, gsh, geq (by decide)⟩⟩

end Huffman
